import Mathlib

/-!
Verification development for the viswin LEO satellite simulation.

The definitions below are a shallow embedding of the image-downlink core:
* `majority_vote_bytes`, `parsePkt`, `push` — `src/bbu/bbu_leo.py`
  (`majority_vote_bytes`, `ImageReassembler.push`);
* `b64encode`, `mkChunkPkt`, `txChunkEmissions` — `src/satelllite/satellite_leo.py`
  (`send_image_if_needed`);
* `unpackPacked`, `find_lines_by_header`, `frame_from_headered_raw`,
  `frame_from_continuous_packed`, `decode_one_frame` — `src/common/raw_to_image.py`;
* `link_quality_from_elev`, `corrupt_base64_payload`, `propagate` —
  `src/common/rf_channel_leo.py`.

Bytes are modelled as `Nat` (values `< 256` where it matters), byte strings as
`List Nat`.  Python dicts are modelled as association lists that preserve
insertion order (as Python 3.7+ dicts do), since `next(iter(d.values()))` and
the histogram tie-break in the source depend on that order.
-/

namespace ViswinSim

/-! ## Association lists modelling Python dicts (insertion-ordered) -/

/-- Dict lookup: first (unique, under `keysNodup`) binding of a key. -/
def lookupA {β : Type} : List (Int × β) → Int → Option β
  | [], _ => none
  | (k, v) :: rest, key => if k = key then some v else lookupA rest key

/-- Dict assignment `d[key] = v`: overwrite in place (keeping the key's
insertion position, as Python dicts do) or append a new binding at the end. -/
def updateA {β : Type} : List (Int × β) → Int → β → List (Int × β)
  | [], key, v => [(key, v)]
  | (k, w) :: rest, key, v =>
    if k = key then (k, v) :: rest else (k, w) :: updateA rest key v

/-- Dict deletion `del d[key]`: remove the (unique) binding of a key. -/
def removeA {β : Type} : List (Int × β) → Int → List (Int × β)
  | [], _ => []
  | (k, w) :: rest, key => if k = key then rest else (k, w) :: removeA rest key

/-- `d.values()` in insertion order. -/
def valuesA {β : Type} (l : List (Int × β)) : List β := l.map Prod.snd

/-- The table keys are pairwise distinct (true of every real dict). -/
def keysNodup {β : Type} (l : List (Int × β)) : Prop := (l.map Prod.fst).Nodup

/-! ## `majority_vote_bytes` (src/bbu/bbu_leo.py, lines 28-48) -/

/-- `min(len(c) for c in copies)` (0 on the empty list, which the source
guards against before evaluating the generator). -/
def minLen : List (List Nat) → Nat
  | [] => 0
  | [c] => c.length
  | c :: rest => min c.length (minLen rest)

/-- Distinct values of a list in first-seen order: the key order of the
Python histogram dict `freq` built at one byte position. -/
def firstSeenAux : List Nat → List Nat → List Nat
  | acc, [] => acc.reverse
  | acc, b :: rest =>
    if b ∈ acc then firstSeenAux acc rest else firstSeenAux (b :: acc) rest

/-- Distinct values in first-seen order. -/
def firstSeen (l : List Nat) : List Nat := firstSeenAux [] l

/-- `max(freq.items(), key=lambda x: x[1])[0]`: among the distinct values in
first-seen order, the first one attaining the maximal multiplicity in `bs`.
Python's `max` keeps the earliest item on ties, which the fold's strict `>`
reproduces. -/
def voteAt (bs : List Nat) : Nat :=
  match firstSeen bs with
  | [] => 0
  | v :: vs => vs.foldl (fun best x => if bs.count x > bs.count best then x else best) v

/-- The byte values at position `i` of each copy. -/
def bytesAt (copies : List (List Nat)) (i : Nat) : List Nat :=
  copies.map (fun c => c.getD i 0)

/-- `majority_vote_bytes(copies)`: truncate every copy to the minimum length
`m` and vote per byte position.  A single copy is returned after truncation
(`copies[0]` post-slicing; for a singleton `m` is its own length, so
`c.take c.length`). -/
def majority_vote_bytes (copies : List (List Nat)) : List Nat :=
  match copies with
  | [] => []
  | [c] => c.take c.length
  | _ :: _ :: _ =>
    (List.range (minLen copies)).map
      (fun i => voteAt (bytesAt (copies.map (fun c => c.take (minLen copies))) i))

/-! ## Datagram parsing (src/bbu/bbu_leo.py, lines 63-72)

An incoming JSON dict is modelled field by field.  The outer `Option` is
key presence (`pkt["f"]` raises `KeyError` when missing), the inner `Option`
is convertibility (`int(...)` / `base64.b64decode(...)` may raise).  `last`
never fails: `bool(pkt.get("last", False))` is total. -/

structure Pkt where
  frame_id : Option (Option Int)
  chunk_idx : Option (Option Int)
  last : Option Bool
  rep : Option (Option Int)
  payload_b64 : Option (Option (List Nat))
deriving DecidableEq

/-- The five successfully extracted fields of an IMG datagram. -/
structure Parsed where
  fid : Int
  idx : Int
  last : Bool
  rep : Int
  data : List Nat
deriving DecidableEq

/-- The `try` block of `push`: any extraction or decode failure yields
`none` (the bare `except: return None`).  A missing `rep` defaults to `0`
and a missing `last` defaults to `False`. -/
def parsePkt (p : Pkt) : Option Parsed :=
  match p.frame_id, p.chunk_idx, p.rep, p.payload_b64 with
  | some (some fid), some (some idx), none, some (some d) =>
    some ⟨fid, idx, p.last.getD false, 0, d⟩
  | some (some fid), some (some idx), some (some rv), some (some d) =>
    some ⟨fid, idx, p.last.getD false, rv, d⟩
  | _, _, _, _ => none

/-! ## Reassembly table (src/bbu/bbu_leo.py, lines 50-114) -/

/-- `frames[fid]["chunks"][idx]` : the stored replicas, keyed by `rep`.
The `t0` timestamps only feed the timeout sweep and are not modelled. -/
structure ChunkState where
  reps : List (Int × List Nat)
deriving DecidableEq

/-- `frames[fid]` : chunk map plus `last_idx`. -/
structure FrameState where
  chunks : List (Int × ChunkState)
  last_idx : Option Int
deriving DecidableEq

abbrev Frames := List (Int × FrameState)

/-- The `setdefault` default `{"chunks": {}, "last_idx": None, ...}`. -/
def emptyFrame : FrameState := ⟨[], none⟩

/-- The table mutation of one accepted datagram:
`ch["reps"][rep] = data` and `if last: st["last_idx"] = idx`. -/
def updFrame (st : FrameState) (q : Parsed) : FrameState :=
  let ch := (lookupA st.chunks q.idx).getD ⟨[]⟩
  { chunks := updateA st.chunks q.idx ⟨updateA ch.reps q.rep q.data⟩
  , last_idx := if q.last then some q.idx else st.last_idx }

/-- `range(last_idx + 1)` as a list of `Int` (empty when `last_idx < 0`,
exactly as Python's `range`). -/
def intRange (li : Int) : List Int :=
  (List.range (li + 1).toNat).map (fun n => (n : Int))

/-- `all(i in st["chunks"] for i in range(last_idx + 1))`. -/
def rangeComplete (st : FrameState) (li : Int) : Bool :=
  (intRange li).all (fun i => (lookupA st.chunks i).isSome)

/-- The noisy output of a chunk: `reps_dict[0]` when present, else the first
stored replica in insertion order (`next(iter(reps_dict.values()))`). -/
def chunkNoisy (ch : ChunkState) : List Nat :=
  match lookupA ch.reps 0 with
  | some d => d
  | none => (valuesA ch.reps).headD []

/-- The fixed output of a chunk: `majority_vote_bytes(list(reps.values()))`. -/
def chunkFixed (ch : ChunkState) : List Nat :=
  majority_vote_bytes (valuesA ch.reps)

/-- `b"".join(raw_noisy_parts)` and `b"".join(raw_fixed_parts)` over the
chunk indices `0..last_idx`. -/
def frameOutputs (st : FrameState) (li : Int) : List Nat × List Nat :=
  ( ((intRange li).map (fun i => chunkNoisy ((lookupA st.chunks i).getD ⟨[]⟩))).flatten
  , ((intRange li).map (fun i => chunkFixed ((lookupA st.chunks i).getD ⟨[]⟩))).flatten )

/-- A completion result `(frame_id, raw_noisy, raw_fixed)`. -/
abbrev Res := Int × List Nat × List Nat

/-- The frame state produced by one accepted datagram:
`setdefault` then `updFrame`. -/
def newFrameState (frames : Frames) (q : Parsed) : FrameState :=
  updFrame ((lookupA frames q.fid).getD emptyFrame) q

/-- The body of `push` after a successful parse: update the table, check
completion against `last_idx`, and on completion delete the frame entry
(`del self.frames[frame_id]`) before returning the result. -/
def pushP (frames : Frames) (q : Parsed) : Frames × Option Res :=
  match (newFrameState frames q).last_idx with
  | none => (updateA frames q.fid (newFrameState frames q), none)
  | some li =>
    if rangeComplete (newFrameState frames q) li then
      (removeA frames q.fid, some (q.fid, frameOutputs (newFrameState frames q) li))
    else (updateA frames q.fid (newFrameState frames q), none)

/-- `ImageReassembler.push` (src/bbu/bbu_leo.py, lines 59-114): parse, then
update/complete.  A parse or base64 failure returns `None` with the table
untouched. -/
def push (frames : Frames) (pkt : Pkt) : Frames × Option Res :=
  match parsePkt pkt with
  | none => (frames, none)
  | some q => pushP frames q

/-- A sequence of `push` calls, collecting each call's result. -/
def pushRun (frames : Frames) : List Pkt → Frames × List (Option Res)
  | [] => (frames, [])
  | p :: rest =>
    let s := push frames p
    let r := pushRun s.1 rest
    (r.1, s.2 :: r.2)

/-- All stored replicas of one chunk share a length. -/
def chunkUniform (ch : ChunkState) : Prop :=
  ∀ d1 ∈ valuesA ch.reps, ∀ d2 ∈ valuesA ch.reps, d1.length = d2.length

/-- All stored replicas of each chunk of a frame share a length. -/
def stateUniform (st : FrameState) : Prop :=
  ∀ p ∈ st.chunks, chunkUniform p.2

/-! ## General list lemmas -/

theorem getD_take {α : Type} (d : α) :
    ∀ (l : List α) (m i : Nat), i < m → (l.take m).getD i d = l.getD i d := by
  intro l
  induction l with
  | nil => intro m i _; simp
  | cons a rest ih =>
    intro m i him
    cases m with
    | zero => omega
    | succ m =>
      cases i with
      | zero => simp
      | succ i => simpa using ih m i (by omega)

theorem getD_range_map {α : Type} (f : Nat → α) (d : α) :
    ∀ (m i : Nat), i < m → ((List.range m).map f).getD i d = f i := by
  intro m i him
  rw [List.getD_eq_getElem?_getD, List.getElem?_map, List.getElem?_range him]
  rfl

theorem countP_add_countP_not {α : Type} (p : α → Bool) :
    ∀ l : List α, l.countP p + l.countP (fun a => !p a) = l.length := by
  intro l
  induction l with
  | nil => simp
  | cons a rest ih =>
    by_cases h : p a = true
    · rw [List.countP_cons_of_pos _ _ h, List.countP_cons_of_neg _ _ (by simp [h])]
      simp [← ih]; omega
    · rw [List.countP_cons_of_neg _ _ (by simpa using h),
        List.countP_cons_of_pos _ _ (by simpa using h)]
      simp [← ih]; omega

theorem countP_le_of_imp {α : Type} (p q : α → Bool) :
    ∀ l : List α, (∀ a ∈ l, p a = true → q a = true) →
      l.countP p ≤ l.countP q := by
  intro l
  induction l with
  | nil => simp
  | cons a rest ih =>
    intro h
    by_cases hp : p a = true
    · rw [List.countP_cons_of_pos _ _ hp, List.countP_cons_of_pos _ _ (h a (by simp) hp)]
      have := ih (fun x hx => h x (by simp [hx]))
      omega
    · rw [List.countP_cons_of_neg _ _ (by simpa using hp)]
      have := ih (fun x hx => h x (by simp [hx]))
      have hle : rest.countP q ≤ (a :: rest).countP q := by
        rw [List.countP_cons]; omega
      omega

/-! ## Lemmas on the majority vote -/

theorem mem_firstSeenAux (b : Nat) :
    ∀ (l acc : List Nat), b ∈ firstSeenAux acc l ↔ b ∈ acc ∨ b ∈ l := by
  intro l
  induction l with
  | nil => intro acc; simp [firstSeenAux]
  | cons a rest ih =>
    intro acc
    by_cases ha : a ∈ acc
    · rw [firstSeenAux, if_pos ha, ih]
      constructor
      · rintro (h | h)
        · exact Or.inl h
        · exact Or.inr (by simp [h])
      · rintro (h | h)
        · exact Or.inl h
        · rcases List.mem_cons.mp h with h | h
          · exact Or.inl (h ▸ ha)
          · exact Or.inr h
    · rw [firstSeenAux, if_neg ha, ih]
      simp [or_assoc, or_comm, or_left_comm]

theorem mem_firstSeen {b : Nat} {l : List Nat} : b ∈ firstSeen l ↔ b ∈ l := by
  rw [firstSeen, mem_firstSeenAux]; simp

theorem voteAt_foldl (bs : List Nat) :
    ∀ (vs : List Nat) (v : Nat),
      (vs.foldl (fun best x => if bs.count x > bs.count best then x else best) v = v ∨
        vs.foldl (fun best x => if bs.count x > bs.count best then x else best) v ∈ vs) ∧
      bs.count v ≤
        bs.count (vs.foldl (fun best x => if bs.count x > bs.count best then x else best) v) ∧
      ∀ x ∈ vs, bs.count x ≤
        bs.count (vs.foldl (fun best x => if bs.count x > bs.count best then x else best) v) := by
  intro vs
  induction vs with
  | nil => intro v; refine ⟨Or.inl rfl, le_refl _, by simp⟩
  | cons a rest ih =>
    intro v
    rw [List.foldl_cons]
    by_cases h : bs.count a > bs.count v
    · rw [if_pos h]
      rcases ih a with ⟨hmem, hv, hall⟩
      refine ⟨?_, ?_, ?_⟩
      · rcases hmem with h1 | h1
        · exact Or.inr (by simp [h1])
        · exact Or.inr (by simp [h1])
      · omega
      · intro x hx
        rcases List.mem_cons.mp hx with rfl | hx
        · exact hv
        · exact hall x hx
    · rw [if_neg h]
      rcases ih v with ⟨hmem, hv, hall⟩
      refine ⟨?_, hv, ?_⟩
      · rcases hmem with h1 | h1
        · exact Or.inl h1
        · exact Or.inr (by simp [h1])
      · intro x hx
        rcases List.mem_cons.mp hx with rfl | hx
        · omega
        · exact hall x hx

theorem voteAt_mem {bs : List Nat} (h : bs ≠ []) : voteAt bs ∈ bs := by
  rcases hbs : firstSeen bs with _ | ⟨v, vs⟩
  · rcases bs with _ | ⟨b, rest⟩
    · exact absurd rfl h
    · have : b ∈ firstSeen (b :: rest) := mem_firstSeen.mpr (by simp)
      rw [hbs] at this; simp at this
  · have hv : v ∈ bs := mem_firstSeen.mp (by rw [hbs]; simp)
    have hvs : ∀ x ∈ vs, x ∈ bs := fun x hx => mem_firstSeen.mp (by rw [hbs]; simp [hx])
    have heq : voteAt bs =
        vs.foldl (fun best x => if bs.count x > bs.count best then x else best) v := by
      rw [voteAt, hbs]
    rw [heq]
    rcases (voteAt_foldl bs vs v).1 with h1 | h1
    · rw [h1]; exact hv
    · exact hvs _ h1

theorem voteAt_max {bs : List Nat} (b : Nat) (hb : b ∈ bs) :
    bs.count b ≤ bs.count (voteAt bs) := by
  have hbfs : b ∈ firstSeen bs := mem_firstSeen.mpr hb
  rcases hbs : firstSeen bs with _ | ⟨v, vs⟩
  · rw [hbs] at hbfs; simp at hbfs
  · have heq : voteAt bs =
        vs.foldl (fun best x => if bs.count x > bs.count best then x else best) v := by
      rw [voteAt, hbs]
    rw [heq]
    rw [hbs] at hbfs
    rcases List.mem_cons.mp hbfs with rfl | hbv
    · exact (voteAt_foldl bs vs b).2.1
    · exact (voteAt_foldl bs vs v).2.2 b hbv

theorem voteAt_of_strict_max {bs : List Nat} {b : Nat} (hb : b ∈ bs)
    (h : ∀ x, x ≠ b → bs.count x < bs.count b) : voteAt bs = b := by
  by_contra hne
  have h1 : bs.count (voteAt bs) < bs.count b := h _ hne
  have h2 : bs.count b ≤ bs.count (voteAt bs) := voteAt_max b hb
  omega

theorem minLen_le {copies : List (List Nat)} :
    ∀ c ∈ copies, minLen copies ≤ c.length := by
  induction copies with
  | nil => simp
  | cons a rest ih =>
    intro c hc
    rcases List.mem_cons.mp hc with rfl | hc
    · rcases rest with _ | ⟨b, rest'⟩
      · simp [minLen]
      · simp [minLen]
    · rcases rest with _ | ⟨b, rest'⟩
      · simp at hc
      · have := ih c hc
        simp only [minLen] at *
        omega

theorem minLen_of_uniform {copies : List (List Nat)} {L : Nat} (hne : copies ≠ [])
    (h : ∀ c ∈ copies, c.length = L) : minLen copies = L := by
  induction copies with
  | nil => exact absurd rfl hne
  | cons a rest ih =>
    rcases rest with _ | ⟨b, rest'⟩
    · simpa [minLen] using h a (by simp)
    · have ha : a.length = L := h a (by simp)
      have hr : minLen (b :: rest') = L :=
        ih (by simp) (fun c hc => h c (by simp [List.mem_cons] at hc ⊢; tauto))
      simp only [minLen] at *
      omega

theorem majority_vote_length {copies : List (List Nat)} (h : copies ≠ []) :
    (majority_vote_bytes copies).length = minLen copies := by
  rcases copies with _ | ⟨a, _ | ⟨b, rest⟩⟩
  · exact absurd rfl h
  · simp [majority_vote_bytes, minLen]
  · simp [majority_vote_bytes]

theorem getD_eq_getElem_of_lt {α : Type} (l : List α) (d : α) (i : Nat)
    (h : i < l.length) : l.getD i d = l[i] := by
  rw [List.getD_eq_getElem?_getD, List.getElem?_eq_getElem h]
  rfl

theorem bytesAt_take (copies : List (List Nat)) (m i : Nat) (hi : i < m) :
    bytesAt (copies.map (fun c => c.take m)) i = bytesAt copies i := by
  unfold bytesAt
  rw [List.map_map]
  have hf : ((fun c : List Nat => c.getD i 0) ∘ fun c => c.take m) =
      fun c : List Nat => c.getD i 0 := by
    funext c
    exact getD_take 0 c m i hi
  rw [hf]

theorem majority_vote_getD {copies : List (List Nat)} (h2 : 2 ≤ copies.length)
    (i : Nat) (hi : i < minLen copies) :
    (majority_vote_bytes copies).getD i 0 = voteAt (bytesAt copies i) := by
  rcases copies with _ | ⟨a, _ | ⟨b, rest⟩⟩
  · simp at h2
  · simp at h2
  · show ((List.range (minLen (a :: b :: rest))).map _).getD i 0 = _
    rw [getD_range_map _ _ _ i hi, bytesAt_take _ _ _ hi]

theorem count_bytesAt (copies : List (List Nat)) (i b : Nat) :
    (bytesAt copies i).count b =
      copies.countP (fun c => decide (c.getD i 0 = b)) := by
  induction copies with
  | nil => simp [bytesAt]
  | cons a rest ih =>
    show ((a.getD i 0) :: bytesAt rest i).count b = _
    rw [List.count_cons, List.countP_cons, ih]
    by_cases h : a.getD i 0 = b
    · simp [h]
    · simp [h, Ne.symm h]

/-- **C2.** `majority_vote_bytes` truncates every replica to the minimum
length `m`; at every position below `m` the emitted byte attains the maximal
count among the replicas' bytes at that position; and when every replica has
the length of a clean payload and, at each position, fewer than `⌈k/2⌉`
replicas differ from the clean payload (`k ≥ 3`), the vote returns the clean
payload. -/
theorem C2_majority_vote_spec (copies : List (List Nat)) (hne : copies ≠ []) :
    (majority_vote_bytes copies).length = minLen copies
    ∧ (∀ i, i < minLen copies → ∀ b,
        (bytesAt copies i).count b ≤
          (bytesAt copies i).count ((majority_vote_bytes copies).getD i 0))
    ∧ (∀ clean : List Nat, 3 ≤ copies.length →
        (∀ c ∈ copies, c.length = clean.length) →
        (∀ i, i < clean.length →
          copies.countP (fun c => decide (c.getD i 0 ≠ clean.getD i 0)) <
            (copies.length + 1) / 2) →
        majority_vote_bytes copies = clean) := by
  refine ⟨majority_vote_length hne, ?_, ?_⟩
  · intro i hi b
    rcases copies with _ | ⟨a, _ | ⟨c2, rest⟩⟩
    · exact absurd rfl hne
    · have hmaj : majority_vote_bytes [a] = a := by
        simp [majority_vote_bytes]
      rw [hmaj]
      have hsing : bytesAt [a] i = [a.getD i 0] := by simp [bytesAt]
      rw [hsing]
      have h1 : List.count b [a.getD i 0] ≤ 1 := by
        calc List.count b [a.getD i 0] ≤ [a.getD i 0].length := List.count_le_length _ _
        _ = 1 := by simp
      have h2 : List.count (a.getD i 0) [a.getD i 0] = 1 := by simp
      omega
    · rw [majority_vote_getD (by simp) i hi]
      by_cases hb : b ∈ bytesAt (a :: c2 :: rest) i
      · exact voteAt_max b hb
      · rw [List.count_eq_zero_of_not_mem hb]
        exact Nat.zero_le _
  · intro clean h3 hlen hdiff
    have hm : minLen copies = clean.length := minLen_of_uniform hne hlen
    have h2 : 2 ≤ copies.length := by omega
    have hlen' : (majority_vote_bytes copies).length = clean.length := by
      rw [majority_vote_length hne, hm]
    apply List.ext_getElem hlen'
    intro i hi1 hi2
    have him : i < minLen copies := by rw [hm]; exact hi2
    rw [← getD_eq_getElem_of_lt _ 0 i hi1, ← getD_eq_getElem_of_lt _ 0 i hi2,
      majority_vote_getD h2 i him]
    set k := copies.length with hk
    set d := copies.countP (fun c => decide (c.getD i 0 ≠ clean.getD i 0)) with hd
    have hdlt : d < (k + 1) / 2 := hdiff i hi2
    have hcnt_clean : (bytesAt copies i).count (clean.getD i 0) = k - d := by
      rw [count_bytesAt]
      have hsplit := countP_add_countP_not
        (fun c : List Nat => decide (c.getD i 0 ≠ clean.getD i 0)) copies
      have hcongr : copies.countP
          (fun c : List Nat => !(decide (c.getD i 0 ≠ clean.getD i 0))) =
          copies.countP (fun c : List Nat => decide (c.getD i 0 = clean.getD i 0)) := by
        apply List.countP_congr
        intro c _
        by_cases h : c.getD i 0 = clean.getD i 0 <;> simp [h]
      rw [hcongr] at hsplit
      omega
    have hcnt_other : ∀ x, x ≠ clean.getD i 0 → (bytesAt copies i).count x ≤ d := by
      intro x hx
      rw [count_bytesAt]
      apply countP_le_of_imp
      intro c _ hc
      simp only [decide_eq_true_eq] at hc ⊢
      rw [hc]
      exact hx
    apply voteAt_of_strict_max
    · have hpos : 0 < (bytesAt copies i).count (clean.getD i 0) := by omega
      exact List.count_pos_iff.mp hpos
    · intro x hx
      have := hcnt_other x hx
      omega

/-- Witness for C2 at a concrete input: three replicas of `[1]` with one
corrupted to `[2]` vote back to `[1]`. -/
theorem C2_majority_vote_spec_witness :
    majority_vote_bytes [[1], [1], [2]] = [1] :=
  (C2_majority_vote_spec [[1], [1], [2]] (by decide)).2.2 [1] (by decide)
    (by decide) (by decide)

/-! ## Lemmas on the dict model -/

theorem lookupA_updateA {β : Type} (k j : Int) (v : β) :
    ∀ l : List (Int × β),
      lookupA (updateA l k v) j = if k = j then some v else lookupA l j := by
  intro l
  induction l with
  | nil => rfl
  | cons a rest ih =>
    rcases a with ⟨k0, w⟩
    by_cases hk : k0 = k <;> by_cases hj0 : k0 = j <;> by_cases hjk : k = j <;>
      simp_all [updateA, lookupA]

theorem lookupA_eq_none_of_not_mem {β : Type} (k : Int) :
    ∀ l : List (Int × β), k ∉ l.map Prod.fst → lookupA l k = none := by
  intro l
  induction l with
  | nil => intro _; rfl
  | cons a rest ih =>
    rcases a with ⟨k0, w⟩
    intro h
    simp only [List.map_cons, List.mem_cons] at h
    push_neg at h
    rw [lookupA, if_neg (fun hh : k0 = k => h.1 hh.symm)]
    exact ih h.2

theorem lookupA_removeA_self {β : Type} (k : Int) :
    ∀ l : List (Int × β), keysNodup l → lookupA (removeA l k) k = none := by
  intro l
  induction l with
  | nil => intro _; rfl
  | cons a rest ih =>
    rcases a with ⟨k0, w⟩
    intro hnd
    rw [keysNodup, List.map_cons, List.nodup_cons] at hnd
    by_cases hk : k0 = k
    · subst hk
      rw [removeA, if_pos rfl]
      exact lookupA_eq_none_of_not_mem _ _ (by simpa using hnd.1)
    · rw [removeA, if_neg hk, lookupA, if_neg hk]
      exact ih hnd.2

theorem push_eq_pushP (frames : Frames) (pkt : Pkt) (q : Parsed)
    (h : parsePkt pkt = some q) : push frames pkt = pushP frames q := by
  rw [push, h]

/-! ## C9: parse failures leave the table untouched -/

/-- **C9.** A datagram whose `frame_id`, `chunk_idx` or `payload_b64` is
missing or fails conversion/decoding is rejected by the `try` block: `push`
returns `None` and the reassembly table is exactly as before, so a
subsequent run behaves as if the failing call never happened. -/
theorem C9_parse_failure_no_effect (frames : Frames) (pkt : Pkt)
    (rest : List Pkt)
    (h : pkt.frame_id = none ∨ pkt.frame_id = some none ∨
         pkt.chunk_idx = none ∨ pkt.chunk_idx = some none ∨
         pkt.payload_b64 = none ∨ pkt.payload_b64 = some none) :
    parsePkt pkt = none
    ∧ push frames pkt = (frames, none)
    ∧ pushRun frames (pkt :: rest) =
        ((pushRun frames rest).1, none :: (pushRun frames rest).2) := by
  have hp : parsePkt pkt = none := by
    rcases pkt with ⟨f, c, l, r, pl⟩
    rcases f with _ | ⟨_ | fv⟩ <;> rcases c with _ | ⟨_ | cv⟩ <;>
      rcases r with _ | ⟨_ | rv⟩ <;> rcases pl with _ | ⟨_ | pv⟩ <;>
      simp_all [parsePkt]
  have hpush : push frames pkt = (frames, none) := by
    rw [push, hp]
  refine ⟨hp, hpush, ?_⟩
  rw [pushRun]
  simp [hpush]

/-- Witness for C9: a datagram with no `frame_id` key leaves an empty table
empty and yields `None`. -/
theorem C9_parse_failure_no_effect_witness :
    push [] ⟨none, some (some 0), none, none, some (some [1])⟩ = ([], none) :=
  (C9_parse_failure_no_effect [] ⟨none, some (some 0), none, none, some (some [1])⟩
    [] (Or.inl rfl)).2.1

/-! ## C10: datagrams without `rep`/`last` keys land in replica slot 0 -/

/-- An IMG datagram as the transmitter actually builds it, seen by the
parser: it carries `frame_id`, `chunk_idx` and a payload but no `rep` and no
`last` key. -/
def mkRepless (fid idx : Int) (d : List Nat) : Pkt :=
  ⟨some (some fid), some (some idx), none, none, some (some d)⟩

theorem push_mkRepless_fresh (fid idx : Int) (d : List Nat) (frames : Frames)
    (hfid : lookupA frames fid = none) :
    push frames (mkRepless fid idx d) =
      (updateA frames fid ⟨[(idx, ⟨[(0, d)]⟩)], none⟩, none) := by
  have hst : newFrameState frames ⟨fid, idx, false, 0, d⟩ =
      ⟨[(idx, ⟨[(0, d)]⟩)], none⟩ := by
    rw [newFrameState, hfid]
    simp [updFrame, emptyFrame, lookupA, updateA]
  rw [push_eq_pushP frames (mkRepless fid idx d) ⟨fid, idx, false, 0, d⟩ rfl,
    pushP, hst]

theorem push_mkRepless_existing (fid idx : Int) (d e : List Nat) (frames : Frames)
    (hfid : lookupA frames fid = some ⟨[(idx, ⟨[(0, e)]⟩)], none⟩) :
    push frames (mkRepless fid idx d) =
      (updateA frames fid ⟨[(idx, ⟨[(0, d)]⟩)], none⟩, none) := by
  have hst : newFrameState frames ⟨fid, idx, false, 0, d⟩ =
      ⟨[(idx, ⟨[(0, d)]⟩)], none⟩ := by
    rw [newFrameState, hfid]
    simp [updFrame, lookupA, updateA]
  rw [push_eq_pushP frames (mkRepless fid idx d) ⟨fid, idx, false, 0, d⟩ rfl,
    pushP, hst]

theorem pushRun_mkRepless (fid idx : Int) :
    ∀ (ds : List (List Nat)) (e : List Nat) (frames : Frames),
      lookupA frames fid = some ⟨[(idx, ⟨[(0, e)]⟩)], none⟩ →
      (pushRun frames (ds.map (mkRepless fid idx))).2 = ds.map (fun _ => none)
      ∧ lookupA (pushRun frames (ds.map (mkRepless fid idx))).1 fid =
          some ⟨[(idx, ⟨[(0, ds.getLastD e)]⟩)], none⟩ := by
  intro ds
  induction ds with
  | nil =>
    intro e frames hfid
    exact ⟨rfl, hfid⟩
  | cons d rest ih =>
    intro e frames hfid
    have hstep := push_mkRepless_existing fid idx d e frames hfid
    have hlk : lookupA (updateA frames fid ⟨[(idx, ⟨[(0, d)]⟩)], none⟩) fid =
        some ⟨[(idx, ⟨[(0, d)]⟩)], none⟩ := by
      rw [lookupA_updateA]; simp
    have := ih d _ hlk
    rw [List.map_cons, pushRun, hstep]
    refine ⟨by simp [this.1], ?_⟩
    rw [List.getLastD_cons]
    exact this.2

/-- **C10.** A datagram lacking the `rep` key (and the `last` key) is not
discarded: it parses with `rep = 0` and `last = False`, so every such
datagram for the same `(frame_id, chunk_idx)` is stored in replica slot 0
with last-writer-wins overwrite, the chunk ends up with exactly one stored
replica, and the majority-voted output of that chunk equals its noisy
output. -/
theorem C10_repless_default_slot (fid idx : Int) (ds : List (List Nat))
    (hne : ds ≠ []) (frames : Frames) (hfid : lookupA frames fid = none) :
    (∀ d, parsePkt (mkRepless fid idx d) = some ⟨fid, idx, false, 0, d⟩)
    ∧ (pushRun frames (ds.map (mkRepless fid idx))).2 = ds.map (fun _ => none)
    ∧ ∀ dl, ds.getLast? = some dl →
        lookupA (pushRun frames (ds.map (mkRepless fid idx))).1 fid =
          some ⟨[(idx, ⟨[(0, dl)]⟩)], none⟩
        ∧ chunkFixed ⟨[(0, dl)]⟩ = chunkNoisy ⟨[(0, dl)]⟩ := by
  rcases ds with _ | ⟨d, rest⟩
  · exact absurd rfl hne
  · have hstep := push_mkRepless_fresh fid idx d frames hfid
    have hlk : lookupA (updateA frames fid ⟨[(idx, ⟨[(0, d)]⟩)], none⟩) fid =
        some ⟨[(idx, ⟨[(0, d)]⟩)], none⟩ := by
      rw [lookupA_updateA]; simp
    have hrun := pushRun_mkRepless fid idx rest d _ hlk
    refine ⟨fun d => rfl, ?_, ?_⟩
    · rw [List.map_cons, pushRun, hstep]
      simp [hrun.1]
    · intro dl hdl
      have hgl : ∀ (rs : List (List Nat)) (d0 : List Nat),
          (d0 :: rs).getLast? = some (rs.getLastD d0) := by
        intro rs
        induction rs with
        | nil => intro d0; rfl
        | cons r rs' ih2 =>
          intro d0
          rw [List.getLast?_cons_cons, List.getLastD_cons]
          exact ih2 r
      have hdl' : rest.getLastD d = dl := by
        rw [hgl rest d] at hdl
        exact Option.some.inj hdl
      constructor
      · have h2 := hrun.2
        rw [hdl'] at h2
        rw [List.map_cons, pushRun, hstep]
        simpa using h2
      · simp [chunkFixed, chunkNoisy, majority_vote_bytes, valuesA, lookupA]

/-- Witness for C10: two `rep`-less datagrams with payloads `[1]` then `[2]`
leave exactly the single replica slot 0 holding `[2]`. -/
theorem C10_repless_default_slot_witness :
    lookupA (pushRun []
      ([[1], [2]].map (mkRepless 7 0))).1 7 = some ⟨[(0, ⟨[(0, [2])]⟩)], none⟩ :=
  ((C10_repless_default_slot 7 0 [[1], [2]] (by decide) [] rfl).2.2 [2] rfl).1

/-! ## C1 infrastructure: runs of `push` restricted to a single `frame_id`

When every accepted datagram belongs to one `frame_id`, the table holds at
most that one entry; `mkTable`/`pushF`/`runF` are that restricted view. -/

/-- The table holding at most the entry of `fid`. -/
def mkTable (fid : Int) : Option FrameState → Frames
  | none => []
  | some st => [(fid, st)]

/-- `pushP` acting on the single tracked frame entry. -/
def pushF (o : Option FrameState) (q : Parsed) : Option FrameState × Option Res :=
  match (updFrame (o.getD emptyFrame) q).last_idx with
  | none => (some (updFrame (o.getD emptyFrame) q), none)
  | some li =>
    if rangeComplete (updFrame (o.getD emptyFrame) q) li then
      (none, some (q.fid, frameOutputs (updFrame (o.getD emptyFrame) q) li))
    else (some (updFrame (o.getD emptyFrame) q), none)

/-- Iterated `pushF`. -/
def runF (o : Option FrameState) : List Parsed → Option FrameState × List (Option Res)
  | [] => (o, [])
  | q :: rest =>
    let s := pushF o q
    let r := runF s.1 rest
    (r.1, s.2 :: r.2)

theorem newFrameState_mkTable (o : Option FrameState) (q : Parsed) :
    newFrameState (mkTable q.fid o) q = updFrame (o.getD emptyFrame) q := by
  cases o with
  | none => rfl
  | some st => simp [newFrameState, mkTable, lookupA]

theorem updateA_mkTable (fid : Int) (o : Option FrameState) (v : FrameState) :
    updateA (mkTable fid o) fid v = mkTable fid (some v) := by
  cases o with
  | none => rfl
  | some st => simp [mkTable, updateA]

theorem removeA_mkTable (fid : Int) (o : Option FrameState) :
    removeA (mkTable fid o) fid = mkTable fid none := by
  cases o with
  | none => rfl
  | some st => simp [mkTable, removeA]

theorem pushP_mkTable (fid : Int) (o : Option FrameState) (q : Parsed)
    (hq : q.fid = fid) :
    pushP (mkTable fid o) q = (mkTable fid (pushF o q).1, (pushF o q).2) := by
  subst hq
  rw [pushP, pushF, newFrameState_mkTable]
  rcases hli : (updFrame (o.getD emptyFrame) q).last_idx with _ | li
  · simp only [hli]
    rw [updateA_mkTable]
  · simp only [hli]
    by_cases hc : rangeComplete (updFrame (o.getD emptyFrame) q) li = true
    · simp only [hc, if_true]
      rw [removeA_mkTable]
    · simp only [if_neg hc]
      rw [updateA_mkTable]

theorem pushRun_mkTable (fid : Int) :
    ∀ (pkts : List Pkt) (qs : List Parsed) (o : Option FrameState),
      pkts.map parsePkt = qs.map some →
      (∀ q ∈ qs, q.fid = fid) →
      pushRun (mkTable fid o) pkts = (mkTable fid (runF o qs).1, (runF o qs).2) := by
  intro pkts
  induction pkts with
  | nil =>
    intro qs o hmap _
    have hq : qs = [] := by
      cases qs with
      | nil => rfl
      | cons a b => simp at hmap
    subst hq
    rfl
  | cons p rest ih =>
    intro qs o hmap hfid
    cases qs with
    | nil => simp at hmap
    | cons q qs' =>
      simp only [List.map_cons, List.cons.injEq] at hmap
      obtain ⟨hp, hrest⟩ := hmap
      have hpush : push (mkTable fid o) p =
          (mkTable fid (pushF o q).1, (pushF o q).2) := by
        rw [push_eq_pushP _ _ _ hp, pushP_mkTable fid o q (hfid q (by simp))]
      rw [pushRun, hpush, runF]
      have := ih qs' (pushF o q).1 hrest (fun x hx => hfid x (by simp [hx]))
      simp [this]

/-- The tracked entry has no `last_idx` yet (or there is no entry). -/
def okState : Option FrameState → Prop
  | none => True
  | some st => st.last_idx = none

/-- The tracked entry stores chunk index `i`. -/
def haveChunk (o : Option FrameState) (i : Int) : Prop :=
  ∃ st, o = some st ∧ (lookupA st.chunks i).isSome = true

theorem updFrame_last_idx (st : FrameState) (q : Parsed) :
    (updFrame st q).last_idx = if q.last then some q.idx else st.last_idx := rfl

theorem updFrame_lookup (st : FrameState) (q : Parsed) (j : Int) :
    lookupA (updFrame st q).chunks j =
      if q.idx = j then
        some ⟨updateA ((lookupA st.chunks q.idx).getD ⟨[]⟩).reps q.rep q.data⟩
      else lookupA st.chunks j := by
  rw [updFrame]
  exact lookupA_updateA _ _ _ _

theorem updFrame_lookup_isSome (st : FrameState) (q : Parsed) (j : Int)
    (h : j = q.idx ∨ (lookupA st.chunks j).isSome = true) :
    (lookupA (updFrame st q).chunks j).isSome = true := by
  rw [updFrame_lookup]
  rcases h with h | h
  · rw [if_pos h.symm]; rfl
  · by_cases hj : q.idx = j
    · rw [if_pos hj]; rfl
    · rw [if_neg hj]; exact h

theorem runF_nolast :
    ∀ (qs : List Parsed) (o : Option FrameState),
      (∀ q ∈ qs, q.last = false) → okState o →
      (runF o qs).2 = qs.map (fun _ => none)
      ∧ okState (runF o qs).1
      ∧ ∀ i, (haveChunk o i ∨ ∃ q ∈ qs, q.idx = i) → haveChunk (runF o qs).1 i := by
  intro qs
  induction qs with
  | nil =>
    intro o _ hok
    refine ⟨rfl, hok, fun i h => ?_⟩
    rcases h with h | ⟨q, hq, _⟩
    · exact h
    · simp at hq
  | cons q rest ih =>
    intro o hlast hok
    have hql : q.last = false := hlast q (by simp)
    have hli : (updFrame (o.getD emptyFrame) q).last_idx = none := by
      rw [updFrame_last_idx, hql]
      cases o with
      | none => rfl
      | some st => simpa using hok
    have hpf : pushF o q = (some (updFrame (o.getD emptyFrame) q), none) := by
      rw [pushF, hli]
    have hrest := ih (some (updFrame (o.getD emptyFrame) q))
      (fun x hx => hlast x (by simp [hx])) (by simpa [okState] using hli)
    refine ⟨?_, ?_, ?_⟩
    · rw [runF, hpf]
      simp [hrest.1]
    · rw [runF, hpf]
      exact hrest.2.1
    · intro i hcase
      have hstep : haveChunk o i ∨ i = q.idx →
          haveChunk (some (updFrame (o.getD emptyFrame) q)) i := by
        rintro (⟨st, hst, hsome⟩ | hidx)
        · subst hst
          exact ⟨_, rfl, updFrame_lookup_isSome st q i (Or.inr hsome)⟩
        · exact ⟨_, rfl, updFrame_lookup_isSome _ q i (Or.inl hidx)⟩
      have htail := hrest.2.2 i
      rw [runF, hpf]
      simp only
      rcases hcase with h | ⟨x, hx, hxi⟩
      · exact htail (Or.inl (hstep (Or.inl h)))
      · rcases List.mem_cons.mp hx with rfl | hx
        · exact htail (Or.inl (hstep (Or.inr hxi.symm)))
        · exact htail (Or.inr ⟨x, hx, hxi⟩)

theorem filterMap_id_map_none {α : Type} (l : List α) :
    (l.map (fun _ => (none : Option Res))).filterMap id = [] := by
  induction l with
  | nil => rfl
  | cons a rest ih =>
    rw [List.map_cons, List.filterMap_cons]
    exact ih

theorem runF_armed (fid L : Int) :
    ∀ (qs : List Parsed) (st : FrameState),
      st.last_idx = some L →
      (∀ q ∈ qs, q.fid = fid ∧ q.last = false) →
      rangeComplete st L = false →
      (∀ i ∈ intRange L, (lookupA st.chunks i).isSome = true ∨ ∃ q ∈ qs, q.idx = i) →
      ∃ ns fx, (runF (some st) qs).2.filterMap id = [(fid, ns, fx)] := by
  intro qs
  induction qs with
  | nil =>
    intro st hli _ hnc hcov
    exfalso
    have hall : rangeComplete st L = true := by
      rw [rangeComplete, List.all_eq_true]
      intro i hi
      rcases hcov i hi with h | ⟨q, hq, _⟩
      · exact h
      · simp at hq
    rw [hall] at hnc
    exact absurd hnc (by decide)
  | cons q rest ih =>
    intro st hli hq hnc hcov
    have hqf : q.fid = fid := (hq q (by simp)).1
    have hql : q.last = false := (hq q (by simp)).2
    have hli2 : (updFrame st q).last_idx = some L := by
      rw [updFrame_last_idx, hql]
      exact hli
    by_cases hc : rangeComplete (updFrame st q) L = true
    · have hpf : pushF (some st) q =
          (none, some (q.fid, frameOutputs (updFrame st q) L)) := by
        rw [pushF]
        simp [hli2, hc]
      have hrest := runF_nolast rest none (fun x hx => (hq x (by simp [hx])).2) trivial
      refine ⟨(frameOutputs (updFrame st q) L).1, (frameOutputs (updFrame st q) L).2, ?_⟩
      rw [runF, hpf]
      simp only [hrest.1]
      rw [List.filterMap_cons]
      simp [filterMap_id_map_none, hqf]
    · have hcf : rangeComplete (updFrame st q) L = false := by
        simpa using hc
      have hpf : pushF (some st) q = (some (updFrame st q), none) := by
        rw [pushF]
        simp [hli2, hcf]
      have hcov2 : ∀ i ∈ intRange L,
          (lookupA (updFrame st q).chunks i).isSome = true ∨ ∃ x ∈ rest, x.idx = i := by
        intro i hi
        rcases hcov i hi with h | ⟨x, hx, hxi⟩
        · exact Or.inl (updFrame_lookup_isSome st q i (Or.inr h))
        · rcases List.mem_cons.mp hx with rfl | hx
          · exact Or.inl (updFrame_lookup_isSome st x i (Or.inl hxi.symm))
          · exact Or.inr ⟨x, hx, hxi⟩
      obtain ⟨ns, fx, hres⟩ := ih (updFrame st q) hli2
        (fun x hx => hq x (by simp [hx])) hcf hcov2
      refine ⟨ns, fx, ?_⟩
      rw [runF, hpf]
      simp only
      rw [List.filterMap_cons]
      simpa using hres

theorem runF_append :
    ∀ (l1 l2 : List Parsed) (o : Option FrameState),
      runF o (l1 ++ l2) =
        ((runF (runF o l1).1 l2).1, (runF o l1).2 ++ (runF (runF o l1).1 l2).2) := by
  intro l1
  induction l1 with
  | nil => intro l2 o; rfl
  | cons q rest ih =>
    intro l2 o
    rw [List.cons_append, runF, runF, ih]
    simp

theorem filter_eq_singleton_split {α : Type} (p : α → Bool) :
    ∀ (l : List α) (x : α), l.filter p = [x] →
      ∃ l1 l2, l = l1 ++ x :: l2 ∧ (∀ y ∈ l1, p y = false) ∧
        (∀ y ∈ l2, p y = false) ∧ p x = true := by
  intro l
  induction l with
  | nil => intro x h; simp at h
  | cons a rest ih =>
    intro x h
    by_cases pa : p a = true
    · rw [List.filter_cons_of_pos pa] at h
      obtain ⟨hax, hrest⟩ := List.cons.inj h
      subst hax
      refine ⟨[], rest, rfl, by simp, ?_, pa⟩
      intro y hy
      have := List.filter_eq_nil_iff.mp hrest y hy
      simpa using this
    · have pa' : p a = false := by simpa using pa
      rw [List.filter_cons_of_neg (by simp [pa'])] at h
      obtain ⟨l1, l2, hsplit, h1, h2, hx⟩ := ih x h
      exact ⟨a :: l1, l2, by rw [hsplit, List.cons_append],
        fun y hy => by
          rcases List.mem_cons.mp hy with rfl | hy
          · exact pa'
          · exact h1 y hy, h2, hx⟩

theorem pushP_nolast_eq (frames : Frames) (q : Parsed)
    (hli : (newFrameState frames q).last_idx = none) :
    pushP frames q = (updateA frames q.fid (newFrameState frames q), none) := by
  rw [pushP]
  simp only [hli]

theorem pushP_complete_eq (frames : Frames) (q : Parsed) (li : Int)
    (hli : (newFrameState frames q).last_idx = some li)
    (hc : rangeComplete (newFrameState frames q) li = true) :
    pushP frames q =
      (removeA frames q.fid,
        some (q.fid, frameOutputs (newFrameState frames q) li)) := by
  rw [pushP]
  simp only [hli, hc, if_true]

theorem pushP_incomplete_eq (frames : Frames) (q : Parsed) (li : Int)
    (hli : (newFrameState frames q).last_idx = some li)
    (hc : ¬rangeComplete (newFrameState frames q) li = true) :
    pushP frames q = (updateA frames q.fid (newFrameState frames q), none) := by
  rw [pushP]
  simp only [hli, if_neg hc]

/-- Every non-`None` result of `push` comes from the completion branch: the
parsed `frame_id` is returned, the outputs are `frameOutputs`, and the table
is the old table with the frame entry deleted. -/
theorem push_some_cases (frames : Frames) (pkt : Pkt) (fid : Int)
    (ns fx : List Nat) (h : (push frames pkt).2 = some (fid, ns, fx)) :
    ∃ q li, parsePkt pkt = some q ∧ q.fid = fid ∧
      (newFrameState frames q).last_idx = some li ∧
      rangeComplete (newFrameState frames q) li = true ∧
      (push frames pkt).1 = removeA frames fid ∧
      (ns, fx) = frameOutputs (newFrameState frames q) li := by
  rcases hp : parsePkt pkt with _ | q
  · have hpush : push frames pkt = (frames, none) := by rw [push, hp]
    rw [hpush] at h
    exact absurd h (by simp)
  · have hpp := push_eq_pushP frames pkt q hp
    rcases hli : (newFrameState frames q).last_idx with _ | li
    · rw [hpp, pushP_nolast_eq frames q hli] at h
      exact absurd h (by simp)
    · by_cases hc : rangeComplete (newFrameState frames q) li = true
      · rw [hpp, pushP_complete_eq frames q li hli hc] at h
        simp only [Option.some.injEq, Prod.mk.injEq] at h
        refine ⟨q, li, rfl, h.1, hli, hc, ?_, ?_⟩
        · rw [hpp, pushP_complete_eq frames q li hli hc, ← h.1]
        · exact (h.2).symm
      · rw [hpp, pushP_incomplete_eq frames q li hli hc] at h
        exact absurd h (by simp)

theorem lookupA_mem {β : Type} (k : Int) (v : β) :
    ∀ l : List (Int × β), lookupA l k = some v → (k, v) ∈ l := by
  intro l
  induction l with
  | nil => intro h; exact absurd h (by simp [lookupA])
  | cons a rest ih =>
    rcases a with ⟨k0, w⟩
    intro h
    rw [lookupA] at h
    by_cases hk : k0 = k
    · subst hk
      rw [if_pos rfl] at h
      have hw := Option.some.inj h
      subst hw
      exact List.mem_cons_self _ _
    · rw [if_neg hk] at h
      exact List.mem_cons_of_mem _ (ih h)

theorem chunk_noisy_fixed_length (ch : ChunkState) (hu : chunkUniform ch) :
    (chunkNoisy ch).length = (chunkFixed ch).length := by
  rcases hv : valuesA ch.reps with _ | ⟨v, vs⟩
  · have hlk : lookupA ch.reps 0 = none := by
      rcases hlk : lookupA ch.reps 0 with _ | d
      · rfl
      · have hmem : (0, d) ∈ ch.reps := lookupA_mem _ _ _ hlk
        have hd : d ∈ valuesA ch.reps := List.mem_map_of_mem Prod.snd hmem
        rw [hv] at hd
        exact absurd hd (by simp)
    rw [chunkNoisy, hlk, chunkFixed, hv]
    rfl
  · have hvne : valuesA ch.reps ≠ [] := by rw [hv]; simp
    have hulen : ∀ c ∈ valuesA ch.reps, c.length = v.length := by
      intro c hc
      exact hu c hc v (by rw [hv]; simp)
    have hmin : minLen (valuesA ch.reps) = v.length := minLen_of_uniform hvne hulen
    have hfix : (chunkFixed ch).length = v.length := by
      rw [chunkFixed, majority_vote_length hvne, hmin]
    rw [hfix]
    rcases hlk : lookupA ch.reps 0 with _ | d
    · rw [chunkNoisy, hlk, hv]
      rfl
    · rw [chunkNoisy, hlk]
      have hmem : (0, d) ∈ ch.reps := lookupA_mem _ _ _ hlk
      exact hulen d (List.mem_map_of_mem Prod.snd hmem)

theorem flatten_length_congr (f g : Int → List Nat) :
    ∀ l : List Int, (∀ i ∈ l, (f i).length = (g i).length) →
      ((l.map f).flatten).length = ((l.map g).flatten).length := by
  intro l
  induction l with
  | nil => intro _; rfl
  | cons a rest ih =>
    intro h
    simp only [List.map_cons, List.flatten_cons, List.length_append]
    rw [h a (by simp), ih (fun i hi => h i (by simp [hi]))]

theorem frameOutputs_length (st : FrameState) (li : Int) (hu : stateUniform st) :
    (frameOutputs st li).1.length = (frameOutputs st li).2.length := by
  rw [frameOutputs]
  apply flatten_length_congr
  intro i _
  apply chunk_noisy_fixed_length
  rcases hlk : lookupA st.chunks i with _ | ch
  · intro d1 hd1
    exact absurd hd1 (by simp [valuesA])
  · have := hu (i, ch) (lookupA_mem _ _ _ hlk)
    simpa using this

theorem runF_unique_last (fid L : Int) (qs : List Parsed)
    (hfid : ∀ q ∈ qs, q.fid = fid)
    (hone : (qs.filter (fun q => q.last)).map Parsed.idx = [L])
    (hcov : (intRange L).all (fun i => qs.any (fun q => decide (q.idx = i))) = true) :
    ∃ ns fx, (runF none qs).2.filterMap id = [(fid, ns, fx)] := by
  rcases hf : qs.filter (fun q => q.last) with _ | ⟨ql, tail⟩
  · rw [hf] at hone
    exact absurd hone (by simp)
  · rcases tail with _ | ⟨x2, tail2⟩
    · rw [hf] at hone
      have hqlidx : ql.idx = L := by simpa using hone
      obtain ⟨l1, l2, hsplit, h1, h2, hlast⟩ := filter_eq_singleton_split _ qs ql hf
      have hmemq : ql ∈ qs := by rw [hsplit]; simp
      have hphase1 := runF_nolast l1 none (fun y hy => h1 y hy) trivial
      have hA : (runF none qs).2 =
          (runF none l1).2 ++ (runF (runF none l1).1 (ql :: l2)).2 := by
        rw [hsplit, runF_append]
      have hB : (runF (runF none l1).1 (ql :: l2)).2 =
          (pushF (runF none l1).1 ql).2 ::
            (runF (pushF (runF none l1).1 ql).1 l2).2 := rfl
      have hli2 : (updFrame ((runF none l1).1.getD emptyFrame) ql).last_idx =
          some L := by
        rw [updFrame_last_idx, hlast, hqlidx]
        simp
      by_cases hc : rangeComplete
          (updFrame ((runF none l1).1.getD emptyFrame) ql) L = true
      · have hpf : pushF (runF none l1).1 ql =
            (none, some (ql.fid,
              frameOutputs (updFrame ((runF none l1).1.getD emptyFrame) ql) L)) := by
          rw [pushF]
          simp only [hli2, hc, if_true]
        have hrest := runF_nolast l2 none (fun y hy => h2 y hy) trivial
        refine ⟨(frameOutputs (updFrame ((runF none l1).1.getD emptyFrame) ql) L).1,
          (frameOutputs (updFrame ((runF none l1).1.getD emptyFrame) ql) L).2, ?_⟩
        rw [hA, List.filterMap_append, hphase1.1, filterMap_id_map_none, hB, hpf]
        simp only [List.nil_append]
        rw [List.filterMap_cons]
        have hrest2 : (runF (none : Option FrameState) l2).2 =
            l2.map (fun _ => none) := hrest.1
        simp only [id]
        rw [hrest2, filterMap_id_map_none, hfid ql hmemq]
      · have hcf : rangeComplete
            (updFrame ((runF none l1).1.getD emptyFrame) ql) L = false := by
          simpa using hc
        have hpf : pushF (runF none l1).1 ql =
            (some (updFrame ((runF none l1).1.getD emptyFrame) ql), none) := by
          rw [pushF]
          simp only [hli2, if_neg hc]
        have hcov2 : ∀ i ∈ intRange L,
            (lookupA (updFrame ((runF none l1).1.getD emptyFrame) ql).chunks i).isSome
              = true ∨ ∃ q ∈ l2, q.idx = i := by
          intro i hi
          have hany := List.all_eq_true.mp hcov i hi
          obtain ⟨q, hqmem, hqi⟩ := List.any_eq_true.mp hany
          have hqi' : q.idx = i := of_decide_eq_true hqi
          rw [hsplit] at hqmem
          rcases List.mem_append.mp hqmem with hq1 | hq12
          · have hhave := hphase1.2.2 i (Or.inr ⟨q, hq1, hqi'⟩)
            obtain ⟨st1, ho1, hsome⟩ := hhave
            rw [ho1]
            exact Or.inl (updFrame_lookup_isSome st1 ql i (Or.inr hsome))
          · rcases List.mem_cons.mp hq12 with rfl | hq2
            · exact Or.inl (updFrame_lookup_isSome _ q i (Or.inl hqi'.symm))
            · exact Or.inr ⟨q, hq2, hqi'⟩
        obtain ⟨ns, fx, hres⟩ := runF_armed fid L l2
          (updFrame ((runF none l1).1.getD emptyFrame) ql) hli2
          (fun y hy => ⟨hfid y (by rw [hsplit]; simp [hy]), h2 y hy⟩) hcf hcov2
        refine ⟨ns, fx, ?_⟩
        rw [hA, List.filterMap_append, hphase1.1, filterMap_id_map_none, hB, hpf]
        simp only [List.nil_append]
        rw [List.filterMap_cons]
        simpa using hres
    · rw [hf] at hone
      exact absurd hone (by simp)

/-- **C1 (amended).** When `push` completes a frame it removes the frame's
table entry before returning; `raw_noisy` and `raw_fixed` have equal length
whenever all stored replicas of each chunk share a length; and for every
delivery sequence for one `frame_id` containing exactly one `last=true`
datagram (for chunk `L`) and at least one decoded replica of every chunk in
`[0, L]`, `push` returns a non-`None` result exactly once.  (The original
unconditional exactly-once fails: datagrams that arrive after a completion
re-create the entry, which can complete again — see the counterexample.) -/
theorem C1_completion_contract :
    (∀ (frames : Frames) (pkt : Pkt) (fid : Int) (ns fx : List Nat),
        keysNodup frames → (push frames pkt).2 = some (fid, ns, fx) →
        lookupA (push frames pkt).1 fid = none)
    ∧ (∀ (frames : Frames) (pkt : Pkt) (q : Parsed) (fid : Int) (ns fx : List Nat),
        parsePkt pkt = some q → (push frames pkt).2 = some (fid, ns, fx) →
        stateUniform (newFrameState frames q) → ns.length = fx.length)
    ∧ (∀ (pkts : List Pkt) (qs : List Parsed) (fid L : Int),
        pkts.map parsePkt = qs.map some →
        (∀ q ∈ qs, q.fid = fid) →
        (qs.filter (fun q => q.last)).map Parsed.idx = [L] →
        (intRange L).all (fun i => qs.any (fun q => decide (q.idx = i))) = true →
        ∃ ns fx, ((pushRun [] pkts).2).filterMap id = [(fid, ns, fx)]) := by
  refine ⟨?_, ?_, ?_⟩
  · intro frames pkt fid ns fx hnd h
    obtain ⟨q, li, hp, hqfid, hli, hc, hframes, hout⟩ :=
      push_some_cases frames pkt fid ns fx h
    rw [hframes]
    exact lookupA_removeA_self fid frames hnd
  · intro frames pkt q fid ns fx hp h hu
    obtain ⟨q', li, hp', hqfid, hli, hc, hframes, hout⟩ :=
      push_some_cases frames pkt fid ns fx h
    have hq : q' = q := by
      rw [hp] at hp'
      exact (Option.some.inj hp').symm
    subst hq
    have hlen := frameOutputs_length (newFrameState frames q') li hu
    rw [← hout] at hlen
    exact hlen
  · intro pkts qs fid L hmap hfid hone hcov
    have hrel := pushRun_mkTable fid pkts qs none hmap hfid
    have hempty : pushRun [] pkts =
        (mkTable fid (runF none qs).1, (runF none qs).2) := hrel
    rw [hempty]
    exact runF_unique_last fid L qs hfid hone hcov

/-- **C1 counterexample.** The claim's unconditional "exactly once" is
false: the spec's own transmit contract puts `last=true` on every replica of
the final chunk, and when a replica of each chunk arrives after the first
completion, the reassembler completes the same `frame_id` a second time.
Here frame 0 with chunks `{0, 1}` and two replicas per chunk completes twice
(outputs 2 and 4), because the entry deleted at the first completion is
rebuilt by the remaining two replicas. -/
theorem C1_counterexample :
    (pushRun []
        [⟨some (some 0), some (some 0), some false, some (some 0), some (some [10])⟩,
         ⟨some (some 0), some (some 1), some true, some (some 0), some (some [20])⟩,
         ⟨some (some 0), some (some 0), some false, some (some 1), some (some [10])⟩,
         ⟨some (some 0), some (some 1), some true, some (some 1), some (some [20])⟩]).2 =
      [none, some (0, [10, 20], [10, 20]), none, some (0, [10, 20], [10, 20])] := by
  decide

/-- Witness for C1: a single-chunk frame delivered as one `last=true`
datagram completes exactly once. -/
theorem C1_completion_contract_witness :
    ∃ ns fx, ((pushRun []
      [⟨some (some 5), some (some 0), some true, some (some 0), some (some [9])⟩]).2).filterMap id
      = [(5, ns, fx)] :=
  C1_completion_contract.2.2
    [⟨some (some 5), some (some 0), some true, some (some 0), some (some [9])⟩]
    [⟨5, 0, true, 0, [9]⟩] 5 0 (by decide) (by decide) (by decide) (by decide)

/-! ## Pixel codec (src/common/raw_to_image.py)

Bytes are `Nat < 256`; the 12-bit unpack uses the same bitwise operators as
the numpy source.  numpy's `reshape(-1, 3)` is modelled by consuming
consecutive 3-byte groups; on the inputs the source feeds it (3072-byte
blocks, `W·H·12/8`-byte buffers with `W·H` even) the byte count is a
multiple of 3, as `reshape` requires. -/

/-- `HEADER = bytes.fromhex("F030F080")`. -/
def HEADER : List Nat := [240, 48, 240, 128]

/-- The 3-byte → 2-pixel unpack applied to consecutive groups, emitting the
even/odd pixels in order (`out[0::2] = p0`, `out[1::2] = p1`). -/
def unpackPacked : List Nat → List Nat
  | b0 :: b1 :: b2 :: rest =>
    (b0 ||| ((b1 &&& 15) <<< 8)) :: ((b2 <<< 4) ||| (b1 >>> 4)) :: unpackPacked rest
  | _ => []

/-- `unpack_12bit_packed_2048`: 3072 bytes → 2048 12-bit pixels; any other
length raises `ValueError` (modelled as `none`; the header scanner only ever
produces 3072-byte blocks). -/
def unpack_12bit_packed_2048 (data : List Nat) : Option (List Nat) :=
  if data.length = 3072 then some (unpackPacked data) else none

/-- Does `pat` occur in `raw` at offset `i` (a full match, as `bytes.find`
requires)? -/
def matchesAt (raw pat : List Nat) (i : Nat) : Bool :=
  decide ((raw.drop i).take pat.length = pat)

/-- `raw.find(pat, start)`: the lowest offset `≥ start` of a full match. -/
def findIdxFrom (raw pat : List Nat) (start : Nat) : Option Nat :=
  (List.range raw.length).find? (fun i => decide (start ≤ i) && matchesAt raw pat i)

/-- The scan loop of `find_lines_by_header`: at each header hit take the
3072 bytes after the 4-byte marker when they fit, stop after `budget`
blocks, and always resume the scan at `idx + 1`.  `fuel` bounds the loop;
`raw.length + 1` iterations always suffice since the scan offset strictly
increases and stays below `raw.length`. -/
def findLinesAux (raw : List Nat) : Nat → Nat → Nat → List (List Nat)
  | _, _, 0 => []
  | budget, start, fuel + 1 =>
    match findIdxFrom raw HEADER start with
    | none => []
    | some idx =>
      if idx + 4 + 3072 ≤ raw.length then
        if budget ≤ 1 then [(raw.drop (idx + 4)).take 3072]
        else (raw.drop (idx + 4)).take 3072 ::
          findLinesAux raw (budget - 1) (idx + 1) fuel
      else findLinesAux raw budget (idx + 1) fuel

/-- `find_lines_by_header(raw, max_lines)`. -/
def find_lines_by_header (raw : List Nat) (maxLines : Nat) : List (List Nat) :=
  findLinesAux raw maxLines 0 (raw.length + 1)

/-- `frame_from_headered_raw`: `None` when fewer than `height` blocks are
found, else one unpacked 2048-pixel row per block.  (The numpy row
assignment `img[i, :] = ...` requires the deployed `width = 2048`; the
claims are stated at that configuration.) -/
def frame_from_headered_raw (raw : List Nat) (height : Nat) :
    Option (List (List Nat)) :=
  if (find_lines_by_header raw height).length < height then none
  else some ((find_lines_by_header raw height).map
    (fun b => (unpack_12bit_packed_2048 b).getD []))

/-- `reshape((height, width))` of a flat pixel list. -/
def chunksOf {α : Type} (w : Nat) (l : List α) : List (List α) :=
  if h : w = 0 ∨ l.isEmpty then [] else l.take w :: chunksOf w (l.drop w)
termination_by l.length
decreasing_by
  push_neg at h
  rw [List.length_drop]
  have h2 : l ≠ [] := by
    intro e
    subst e
    simp at h
  have h1 : 0 < l.length := List.length_pos.mpr h2
  omega

/-- `frame_from_continuous_packed`: `ValueError` when fewer than
`W·H·12/8` bytes, else unpack the whole (truncated) buffer and reshape. -/
def frame_from_continuous_packed (raw : List Nat) (width height : Nat) :
    Except String (List (List Nat)) :=
  if raw.length < width * height * 12 / 8 then
    Except.error "Not enough bytes for one frame"
  else Except.ok (chunksOf width (unpackPacked (raw.take (width * height * 12 / 8))))

/-- `decode_one_frame`: header mode first, continuous fallback. -/
def decode_one_frame (raw : List Nat) (width height : Nat) :
    Except String (List (List Nat)) :=
  match frame_from_headered_raw raw height with
  | some img => Except.ok img
  | none => frame_from_continuous_packed raw width height

/-- The re-packing map stated by the claim (the inverse direction of the
unpack): `b0 = p0 & 0xFF`, `b1 = (p0 >> 8) | ((p1 & 0x0F) << 4)`,
`b2 = p1 >> 4`. -/
def repackTriple (p0 p1 : Nat) : Nat × Nat × Nat :=
  (p0 &&& 255, (p0 >>> 8) ||| ((p1 &&& 15) <<< 4), p1 >>> 4)

/-! ### Bitwise-to-arithmetic bridge lemmas -/

theorem land_mod16 (b : Nat) : b &&& 15 = b % 16 :=
  Nat.and_pow_two_sub_one_eq_mod b 4

theorem land_mod256 (p : Nat) : p &&& 255 = p % 256 :=
  Nat.and_pow_two_sub_one_eq_mod p 8

theorem shiftr_div16 (b : Nat) : b >>> 4 = b / 16 :=
  Nat.shiftRight_eq_div_pow b 4

theorem shiftr_div256 (p : Nat) : p >>> 8 = p / 256 :=
  Nat.shiftRight_eq_div_pow p 8

theorem lor_shift8 (a x : Nat) (h : a < 256) : a ||| (x <<< 8) = a + 256 * x := by
  have h2 : a < 2 ^ 8 := h
  calc a ||| x <<< 8 = x <<< 8 ||| a := Nat.lor_comm _ _
    _ = 2 ^ 8 * x ||| a := by rw [Nat.shiftLeft_eq, Nat.mul_comm]
    _ = 2 ^ 8 * x + a := (Nat.mul_add_lt_is_or h2 x).symm
    _ = a + 256 * x := by rw [show (2 : Nat) ^ 8 = 256 from rfl]; omega

theorem lor_shift4 (a x : Nat) (h : a < 16) : a ||| (x <<< 4) = a + 16 * x := by
  have h2 : a < 2 ^ 4 := h
  calc a ||| x <<< 4 = x <<< 4 ||| a := Nat.lor_comm _ _
    _ = 2 ^ 4 * x ||| a := by rw [Nat.shiftLeft_eq, Nat.mul_comm]
    _ = 2 ^ 4 * x + a := (Nat.mul_add_lt_is_or h2 x).symm
    _ = a + 16 * x := by rw [show (2 : Nat) ^ 4 = 16 from rfl]; omega

theorem lor_low4 (c d : Nat) (h : d < 16) : (c <<< 4) ||| d = 16 * c + d := by
  have h2 : d < 2 ^ 4 := h
  calc (c <<< 4) ||| d = 2 ^ 4 * c ||| d := by rw [Nat.shiftLeft_eq, Nat.mul_comm]
    _ = 2 ^ 4 * c + d := (Nat.mul_add_lt_is_or h2 c).symm
    _ = 16 * c + d := by rw [show (2 : Nat) ^ 4 = 16 from rfl]

/-- **C4.** For every 3-byte group, the unpack produces
`p0 = b0 | ((b1 & 0x0F) << 8)` and `p1 = (b2 << 4) | (b1 >> 4)`, both below
`2^12`, and the claim's re-packing recovers the original triple. -/
theorem C4_unpack12_roundtrip (b0 b1 b2 : Nat)
    (h0 : b0 < 256) (h1 : b1 < 256) (h2 : b2 < 256) :
    unpackPacked [b0, b1, b2] =
      [b0 ||| ((b1 &&& 15) <<< 8), (b2 <<< 4) ||| (b1 >>> 4)]
    ∧ (b0 ||| ((b1 &&& 15) <<< 8)) < 4096
    ∧ ((b2 <<< 4) ||| (b1 >>> 4)) < 4096
    ∧ repackTriple (b0 ||| ((b1 &&& 15) <<< 8)) ((b2 <<< 4) ||| (b1 >>> 4)) =
        (b0, b1, b2) := by
  have e1 : b1 &&& 15 = b1 % 16 := land_mod16 b1
  have e2 : b0 ||| ((b1 % 16) <<< 8) = b0 + 256 * (b1 % 16) :=
    lor_shift8 b0 (b1 % 16) h0
  have e3 : b1 >>> 4 = b1 / 16 := shiftr_div16 b1
  have e4 : (b2 <<< 4) ||| (b1 / 16) = 16 * b2 + b1 / 16 :=
    lor_low4 b2 (b1 / 16) (by omega)
  have hp0 : b0 ||| ((b1 &&& 15) <<< 8) = b0 + 256 * (b1 % 16) := by
    rw [e1, e2]
  have hp1 : (b2 <<< 4) ||| (b1 >>> 4) = 16 * b2 + b1 / 16 := by
    rw [e3, e4]
  have hb0 : b0 + 256 * (b1 % 16) < 4096 := by omega
  have hb1 : 16 * b2 + b1 / 16 < 4096 := by omega
  refine ⟨rfl, by rw [hp0]; exact hb0, by rw [hp1]; exact hb1, ?_⟩
  rw [repackTriple, hp0, hp1]
  have r1 : (b0 + 256 * (b1 % 16)) &&& 255 = (b0 + 256 * (b1 % 16)) % 256 :=
    land_mod256 _
  have r2 : (b0 + 256 * (b1 % 16)) >>> 8 = (b0 + 256 * (b1 % 16)) / 256 :=
    shiftr_div256 _
  have r3 : (16 * b2 + b1 / 16) &&& 15 = (16 * b2 + b1 / 16) % 16 :=
    land_mod16 _
  have r4 : (16 * b2 + b1 / 16) >>> 4 = (16 * b2 + b1 / 16) / 16 :=
    shiftr_div16 _
  have s1 : (b0 + 256 * (b1 % 16)) % 256 = b0 := by omega
  have s2 : (b0 + 256 * (b1 % 16)) / 256 = b1 % 16 := by omega
  have s3 : (16 * b2 + b1 / 16) % 16 = b1 / 16 := by omega
  have s4 : (16 * b2 + b1 / 16) / 16 = b2 := by omega
  rw [r1, r2, r3, r4, s1, s2, s3, s4]
  have r5 : b1 % 16 ||| ((b1 / 16) <<< 4) = b1 % 16 + 16 * (b1 / 16) :=
    lor_shift4 (b1 % 16) (b1 / 16) (by omega)
  rw [r5]
  have s5 : b1 % 16 + 16 * (b1 / 16) = b1 := by omega
  rw [s5]

/-- Witness for C4 at `(1, 2, 3)`. -/
theorem C4_unpack12_roundtrip_witness :
    repackTriple (1 ||| ((2 &&& 15) <<< 8)) ((3 <<< 4) ||| (2 >>> 4)) =
      (1, 2, 3) :=
  (C4_unpack12_roundtrip 1 2 3 (by decide) (by decide) (by decide)).2.2.2

/-! ### Shape and indexing lemmas for the codec -/

theorem getD_drop {α : Type} (d : α) :
    ∀ (l : List α) (n i : Nat), (l.drop n).getD i d = l.getD (n + i) d := by
  intro l
  induction l with
  | nil => intro n i; simp
  | cons a rest ih =>
    intro n i
    cases n with
    | zero => simp
    | succ n =>
      rw [List.drop_succ_cons, ih, Nat.succ_add, List.getD_cons_succ]

theorem getD_cons2 {α : Type} (a b : α) (l : List α) (n : Nat) (d : α) :
    (a :: b :: l).getD (n + 2) d = l.getD n d := by
  rw [show n + 2 = (n + 1) + 1 by omega, List.getD_cons_succ, List.getD_cons_succ]

theorem getD_cons3 {α : Type} (a b c : α) (l : List α) (n : Nat) (d : α) :
    (a :: b :: c :: l).getD (n + 3) d = l.getD n d := by
  rw [show n + 3 = (n + 2) + 1 by omega, List.getD_cons_succ, getD_cons2]

theorem unpackPacked_length_aux :
    ∀ (n : Nat) (l : List Nat), l.length ≤ n →
      (unpackPacked l).length = 2 * (l.length / 3) := by
  intro n
  induction n with
  | zero =>
    intro l h
    have hl : l = [] := List.eq_nil_of_length_eq_zero (by omega)
    subst hl
    rfl
  | succ n ih =>
    intro l h
    rcases l with _ | ⟨b0, _ | ⟨b1, _ | ⟨b2, rest⟩⟩⟩
    · simp [unpackPacked]
    · simp [unpackPacked]
    · simp [unpackPacked]
    · rw [unpackPacked]
      have hr := ih rest (by simp at h; omega)
      simp only [List.length_cons, hr]
      omega

theorem unpackPacked_length (l : List Nat) :
    (unpackPacked l).length = 2 * (l.length / 3) :=
  unpackPacked_length_aux l.length l le_rfl

theorem unpackPacked_getD :
    ∀ (g : Nat) (l : List Nat), 3 * g + 3 ≤ l.length →
      (unpackPacked l).getD (2 * g) 0 =
        (l.getD (3 * g) 0) ||| (((l.getD (3 * g + 1) 0) &&& 15) <<< 8)
      ∧ (unpackPacked l).getD (2 * g + 1) 0 =
        ((l.getD (3 * g + 2) 0) <<< 4) ||| ((l.getD (3 * g + 1) 0) >>> 4) := by
  intro g
  induction g with
  | zero =>
    intro l h
    rcases l with _ | ⟨b0, _ | ⟨b1, _ | ⟨b2, rest⟩⟩⟩
    · simp at h
    · simp at h
    · simp at h
    · exact ⟨rfl, rfl⟩
  | succ g ih =>
    intro l h
    rcases l with _ | ⟨b0, _ | ⟨b1, _ | ⟨b2, rest⟩⟩⟩
    · simp at h
    · simp at h
    · simp at h
    · have hres := ih rest (by simp at h; omega)
      have L1 : (unpackPacked (b0 :: b1 :: b2 :: rest)).getD (2 * (g + 1)) 0 =
          (unpackPacked rest).getD (2 * g) 0 := by
        rw [unpackPacked, show 2 * (g + 1) = 2 * g + 2 by ring, getD_cons2]
      have L2 : (unpackPacked (b0 :: b1 :: b2 :: rest)).getD (2 * (g + 1) + 1) 0 =
          (unpackPacked rest).getD (2 * g + 1) 0 := by
        rw [unpackPacked, show 2 * (g + 1) + 1 = (2 * g + 1) + 2 by ring, getD_cons2]
      have R0 : (b0 :: b1 :: b2 :: rest).getD (3 * (g + 1)) 0 =
          rest.getD (3 * g) 0 := by
        rw [show 3 * (g + 1) = 3 * g + 3 by ring, getD_cons3]
      have R1 : (b0 :: b1 :: b2 :: rest).getD (3 * (g + 1) + 1) 0 =
          rest.getD (3 * g + 1) 0 := by
        rw [show 3 * (g + 1) + 1 = (3 * g + 1) + 3 by ring, getD_cons3]
      have R2 : (b0 :: b1 :: b2 :: rest).getD (3 * (g + 1) + 2) 0 =
          rest.getD (3 * g + 2) 0 := by
        rw [show 3 * (g + 1) + 2 = (3 * g + 2) + 3 by ring, getD_cons3]
      rw [L1, L2, R0, R1, R2]
      exact hres

theorem chunksOf_nil {α : Type} (w : Nat) : chunksOf w ([] : List α) = [] := by
  rw [chunksOf]
  simp

theorem chunksOf_cons {α : Type} (w : Nat) (l : List α) (hw : w ≠ 0)
    (hl : l ≠ []) :
    chunksOf w l = l.take w :: chunksOf w (l.drop w) := by
  have hie : l.isEmpty = false := by
    cases l with
    | nil => exact absurd rfl hl
    | cons a rest => rfl
  rw [chunksOf, dif_neg (by simp [hw, hie])]

theorem chunksOf_shape {α : Type} (w : Nat) (hw : 0 < w) :
    ∀ (h : Nat) (l : List α), l.length = h * w →
      (chunksOf w l).length = h ∧ ∀ r ∈ chunksOf w l, r.length = w := by
  intro h
  induction h with
  | zero =>
    intro l hl
    have : l = [] := List.eq_nil_of_length_eq_zero (by omega)
    subst this
    rw [chunksOf_nil]
    exact ⟨rfl, by simp⟩
  | succ h ih =>
    intro l hl
    have hpos : 0 < (h + 1) * w := Nat.mul_pos (Nat.succ_pos h) hw
    have hlne : l ≠ [] := by
      intro e
      subst e
      simp at hl
      omega
    have hwle : w ≤ l.length := by
      rw [hl, Nat.succ_mul]
      omega
    rw [chunksOf_cons w l (by omega) hlne]
    have hdrop : (l.drop w).length = h * w := by
      rw [List.length_drop, hl, Nat.succ_mul]
      omega
    have hr := ih (l.drop w) hdrop
    refine ⟨by simp [hr.1], ?_⟩
    intro r hr2
    rcases List.mem_cons.mp hr2 with rfl | hr2
    · rw [List.length_take]
      omega
    · exact hr.2 r hr2

theorem chunksOf_getD {α : Type} (w : Nat) (hw : 0 < w) (d : α) :
    ∀ (i : Nat) (l : List α) (j : Nat), j < w → i * w + j < l.length →
      ((chunksOf w l).getD i []).getD j d = l.getD (i * w + j) d := by
  intro i
  induction i with
  | zero =>
    intro l j hj hlen
    have hlne : l ≠ [] := by
      intro e
      subst e
      simp at hlen
    rw [chunksOf_cons w l (by omega) hlne, List.getD_cons_zero,
      getD_take d l w j hj]
    simp
  | succ i ih =>
    intro l j hj hlen
    have hlne : l ≠ [] := by
      intro e
      subst e
      simp at hlen
    rw [chunksOf_cons w l (by omega) hlne, List.getD_cons_succ]
    rw [Nat.succ_mul] at hlen
    have hlen2 : i * w + j < (l.drop w).length := by
      rw [List.length_drop]
      omega
    rw [ih (l.drop w) j hj hlen2, getD_drop]
    congr 1
    rw [Nat.succ_mul]
    omega

theorem findLinesAux_length (raw : List Nat) :
    ∀ (fuel budget start : Nat), 1 ≤ budget →
      (findLinesAux raw budget start fuel).length ≤ budget := by
  intro fuel
  induction fuel with
  | zero =>
    intro budget start h
    rw [findLinesAux]
    simp
  | succ fuel ih =>
    intro budget start h
    rw [findLinesAux]
    rcases hidx : findIdxFrom raw HEADER start with _ | idx
    · simp
    · simp only
      by_cases hfit : idx + 4 + 3072 ≤ raw.length
      · rw [if_pos hfit]
        by_cases hb : budget ≤ 1
        · rw [if_pos hb]
          simpa using h
        · rw [if_neg hb]
          have := ih (budget - 1) (idx + 1) (by omega)
          simp only [List.length_cons]
          omega
      · rw [if_neg hfit]
        exact le_trans (ih budget (idx + 1) h) le_rfl

theorem findLinesAux_blocks (raw : List Nat) :
    ∀ (fuel budget start : Nat), ∀ b ∈ findLinesAux raw budget start fuel,
      b.length = 3072 := by
  intro fuel
  induction fuel with
  | zero =>
    intro budget start b hb
    rw [findLinesAux] at hb
    exact absurd hb (by simp)
  | succ fuel ih =>
    intro budget start b hb
    rw [findLinesAux] at hb
    rcases hidx : findIdxFrom raw HEADER start with _ | idx
    · rw [hidx] at hb
      exact absurd hb (by simp)
    · rw [hidx] at hb
      simp only at hb
      by_cases hfit : idx + 4 + 3072 ≤ raw.length
      · rw [if_pos hfit] at hb
        have hblk : ((raw.drop (idx + 4)).take 3072).length = 3072 := by
          rw [List.length_take, List.length_drop]
          omega
        by_cases hbud : budget ≤ 1
        · rw [if_pos hbud] at hb
          rcases List.mem_cons.mp hb with rfl | hb
          · exact hblk
          · exact absurd hb (by simp)
        · rw [if_neg hbud] at hb
          rcases List.mem_cons.mp hb with rfl | hb
          · exact hblk
          · exact ih (budget - 1) (idx + 1) b hb
      · rw [if_neg hfit] at hb
        exact ih budget (idx + 1) b hb

/-- **C5.** At the deployed geometry (2048×2048), `decode_one_frame` always
returns either a 2048×2048 image or a typed error, and it errors exactly
when fewer than 2048 header blocks are found and the buffer is shorter than
`2048·2048·12/8` bytes. -/
theorem C5_decode_error_iff (raw : List Nat) :
    ((∃ e, decode_one_frame raw 2048 2048 = Except.error e) ↔
      ((find_lines_by_header raw 2048).length < 2048 ∧
        raw.length < 2048 * 2048 * 12 / 8))
    ∧ (∀ img, decode_one_frame raw 2048 2048 = Except.ok img →
        img.length = 2048 ∧ ∀ row ∈ img, row.length = 2048) := by
  by_cases hb : (find_lines_by_header raw 2048).length < 2048
  · have hdr : frame_from_headered_raw raw 2048 = none := by
      rw [frame_from_headered_raw, if_pos hb]
    by_cases hlen : raw.length < 2048 * 2048 * 12 / 8
    · have hdec : decode_one_frame raw 2048 2048 =
          Except.error "Not enough bytes for one frame" := by
        rw [decode_one_frame, hdr, frame_from_continuous_packed, if_pos hlen]
      refine ⟨⟨fun _ => ⟨hb, hlen⟩, fun _ => ⟨_, hdec⟩⟩, ?_⟩
      intro img himg
      rw [hdec] at himg
      exact absurd himg (by simp)
    · have hdec : decode_one_frame raw 2048 2048 =
          Except.ok (chunksOf 2048 (unpackPacked (raw.take (2048 * 2048 * 12 / 8)))) := by
        rw [decode_one_frame, hdr, frame_from_continuous_packed, if_neg hlen]
      constructor
      · constructor
        · rintro ⟨e, he⟩
          rw [hdec] at he
          exact absurd he (by simp)
        · rintro ⟨_, hl2⟩
          exact absurd hl2 hlen
      · intro img himg
        rw [hdec] at himg
        have himg2 : img =
            chunksOf 2048 (unpackPacked (raw.take (2048 * 2048 * 12 / 8))) :=
          (Except.ok.inj himg).symm
        subst himg2
        have htake : (raw.take (2048 * 2048 * 12 / 8)).length =
            2048 * 2048 * 12 / 8 := by
          rw [List.length_take]
          omega
        have hup : (unpackPacked (raw.take (2048 * 2048 * 12 / 8))).length =
            2048 * 2048 := by
          rw [unpackPacked_length, htake]
        exact chunksOf_shape 2048 (by norm_num) 2048 _ (by rw [hup])
  · have hok : frame_from_headered_raw raw 2048 =
        some ((find_lines_by_header raw 2048).map
          (fun b => (unpack_12bit_packed_2048 b).getD [])) := by
      rw [frame_from_headered_raw, if_neg hb]
    have hdec : decode_one_frame raw 2048 2048 =
        Except.ok ((find_lines_by_header raw 2048).map
          (fun b => (unpack_12bit_packed_2048 b).getD [])) := by
      rw [decode_one_frame, hok]
    constructor
    · constructor
      · rintro ⟨e, he⟩
        rw [hdec] at he
        exact absurd he (by simp)
      · rintro ⟨hb2, _⟩
        exact absurd hb2 hb
    · intro img himg
      rw [hdec] at himg
      have himg2 : img = (find_lines_by_header raw 2048).map
          (fun b => (unpack_12bit_packed_2048 b).getD []) :=
        (Except.ok.inj himg).symm
      subst himg2
      constructor
      · rw [List.length_map]
        have hle : (find_lines_by_header raw 2048).length ≤ 2048 :=
          findLinesAux_length raw (raw.length + 1) 2048 0 (by norm_num)
        omega
      · intro row hrow
        obtain ⟨b, hbmem, hbrow⟩ := List.mem_map.mp hrow
        have hblen : b.length = 3072 :=
          findLinesAux_blocks raw (raw.length + 1) 2048 0 b hbmem
        rw [← hbrow, unpack_12bit_packed_2048, if_pos hblen]
        rw [Option.getD_some, unpackPacked_length, hblen]

/-- Witness for C5: the empty buffer has no header blocks and too few
bytes, so decoding signals the continuous-mode error. -/
theorem C5_decode_error_iff_witness :
    ∃ e, decode_one_frame [] 2048 2048 = Except.error e :=
  ((C5_decode_error_iff []).1).mpr ⟨by decide, by decide⟩

/-- **C6.** A marker-free buffer of exactly `W·H·12/8` bytes decodes through
the continuous fallback into the `H×W` grid whose pixel at `(i, j)` comes
from the 3-byte group `(i·W+j)/2` by the 12-bit unpack formulas. -/
theorem C6_continuous_mode (w h : Nat) (raw : List Nat)
    (hw : 0 < w) (heven : w * h % 2 = 0)
    (hlen : raw.length = w * h * 12 / 8)
    (hblocks : (find_lines_by_header raw h).length < h) :
    ∃ img, decode_one_frame raw w h = Except.ok img
      ∧ img.length = h ∧ (∀ row ∈ img, row.length = w)
      ∧ ∀ i j, i < h → j < w →
          (img.getD i []).getD j 0 =
            (if (i * w + j) % 2 = 0 then
              (raw.getD (3 * ((i * w + j) / 2)) 0) |||
                (((raw.getD (3 * ((i * w + j) / 2) + 1) 0) &&& 15) <<< 8)
            else
              ((raw.getD (3 * ((i * w + j) / 2) + 2) 0) <<< 4) |||
                ((raw.getD (3 * ((i * w + j) / 2) + 1) 0) >>> 4)) := by
  have hn : raw.length = w * h * 12 / 8 := hlen
  have htake : raw.take (w * h * 12 / 8) = raw := by
    rw [← hlen]
    exact List.take_length raw
  have hupl : (unpackPacked raw).length = w * h := by
    rw [unpackPacked_length, hlen]
    omega
  have hdec : decode_one_frame raw w h =
      Except.ok (chunksOf w (unpackPacked raw)) := by
    rw [decode_one_frame, frame_from_headered_raw, if_pos hblocks,
      frame_from_continuous_packed, if_neg (by omega), htake]
  have hshape := chunksOf_shape w hw h (unpackPacked raw)
    (by rw [hupl, Nat.mul_comm])
  refine ⟨chunksOf w (unpackPacked raw), hdec, hshape.1, hshape.2, ?_⟩
  intro i j hi hj
  have hlt : i * w + j < w * h := by
    calc i * w + j < i * w + w := by omega
    _ = (i + 1) * w := (Nat.succ_mul i w).symm
    _ ≤ h * w := Nat.mul_le_mul_right w (by omega)
    _ = w * h := Nat.mul_comm h w
  rw [chunksOf_getD w hw 0 i (unpackPacked raw) j hj (by rw [hupl]; exact hlt)]
  have hg3 : 3 * ((i * w + j) / 2) + 3 ≤ raw.length := by
    rw [hlen]
    omega
  have hup := unpackPacked_getD ((i * w + j) / 2) raw hg3
  by_cases hpar : (i * w + j) % 2 = 0
  · rw [if_pos hpar]
    conv_lhs => rw [show i * w + j = 2 * ((i * w + j) / 2) by omega]
    exact hup.1
  · rw [if_neg hpar]
    conv_lhs => rw [show i * w + j = 2 * ((i * w + j) / 2) + 1 by omega]
    exact hup.2

/-- Witness for C6 at a 2×2 frame: six zero bytes decode to the 2×2 zero
grid through the continuous fallback. -/
theorem C6_continuous_mode_witness :
    ∃ img, decode_one_frame [0, 0, 0, 0, 0, 0] 2 2 = Except.ok img
      ∧ img.length = 2 ∧ (∀ row ∈ img, row.length = 2)
      ∧ ∀ i j, i < 2 → j < 2 →
          (img.getD i []).getD j 0 =
            (if (i * 2 + j) % 2 = 0 then
              ([0, 0, 0, 0, 0, 0].getD (3 * ((i * 2 + j) / 2)) 0) |||
                ((([0, 0, 0, 0, 0, 0].getD (3 * ((i * 2 + j) / 2) + 1) 0) &&& 15) <<< 8)
            else
              (([0, 0, 0, 0, 0, 0].getD (3 * ((i * 2 + j) / 2) + 2) 0) <<< 4) |||
                (([0, 0, 0, 0, 0, 0].getD (3 * ((i * 2 + j) / 2) + 1) 0) >>> 4)) :=
  C6_continuous_mode 2 2 [0, 0, 0, 0, 0, 0] (by decide) (by decide) (by decide)
    (by decide)

/-! ## RF channel model (src/common/rf_channel_leo.py)

Elevations and probabilities are exact rationals.  The three probability
comparisons whose thresholds involve non-integer float powers
(`loss_p = 0.08·(1−q)^1.6`, `ber_p = 0.02·(1−q)^2` with direction
multipliers, `dup_p`) are modelled as oracle booleans in `Rand`, since no
claim depends on those threshold values; the fade-start comparison and the
corruption severity, which the claims do quantify, are computed exactly.
`random.randrange(n)` / `random.choice(alphabet)` are oracle streams
`pos`/`chr` constrained to their ranges in the theorems.  The propagation
`time.sleep` is wall time and not modelled. -/

/-- The base64 alphabet string of `_corrupt_base64_payload`, as character
codes: `A–Z a–z 0–9 + /`. -/
def b64alphabet : List Nat :=
  (List.range 26).map (fun i => 65 + i) ++ (List.range 26).map (fun i => 97 + i)
    ++ (List.range 10).map (fun i => 48 + i) ++ [43, 47]

/-- A datagram as the channel sees it: the `type` field (already a string),
the `payload_b64` text (`none` when absent or not a string), and the two
flags the channel writes. -/
structure CPkt where
  ptype : String
  payload_b64 : Option (List Nat)
  corrupted : Bool
  duplicated : Bool
deriving DecidableEq

/-- The module globals `_in_fade` / `_fade_remaining`. -/
structure ChanState where
  in_fade : Bool
  fade_remaining : Int
deriving DecidableEq

/-- The pseudorandom draws one `propagate` call consumes. -/
structure Rand where
  r_fade : ℚ
  lossDrop : Bool
  berHit : Bool
  dupHit : Bool
  pos : Nat → Nat
  chr : Nat → Nat

/-- `_link_quality_from_elev` with the default mask of 10°. -/
def link_quality_from_elev (elev : ℚ) : ℚ :=
  if elev ≤ 10 then 0 else max 0 (min 1 ((elev - 10) / (90 - 10)))

/-- `fade_start = BURST_FADE_START_PROB · (1 + (1 − q) · 3)`. -/
def fade_start_prob (elev : ℚ) : ℚ :=
  0.0015 * (1 + (1 - link_quality_from_elev elev) * 3)

/-- `severity = 0.3 + (1 − q) · 0.7`. -/
def severityFor (elev : ℚ) : ℚ :=
  0.3 + (1 - link_quality_from_elev elev) * 0.7

/-- `flips = max(1, int(n * 0.002 * severity))` (the value is nonnegative,
so `int` truncation is the floor). -/
def flipsFor (n : Nat) (severity : ℚ) : Nat :=
  max 1 (Int.floor ((n : ℚ) * 0.002 * severity)).toNat

/-- The flip loop of `_corrupt_base64_payload`: `k` times, overwrite the
drawn position with the drawn alphabet character. -/
def corruptIter (pos chr : Nat → Nat) : Nat → List Nat → List Nat
  | 0, s => s
  | k + 1, s => (corruptIter pos chr k s).set (pos k) (b64alphabet.getD (chr k) 0)

/-- `_corrupt_base64_payload`: no-op on a missing/non-string/empty payload,
else rewrite `flips` randomly drawn positions. -/
def corrupt_base64_payload (p : CPkt) (severity : ℚ) (pos chr : Nat → Nat) :
    CPkt :=
  match p.payload_b64 with
  | none => p
  | some [] => p
  | some s =>
    { p with
      payload_b64 := some (corruptIter pos chr (flipsFor s.length severity) s) }

/-- `propagate` (src/common/rf_channel_leo.py, lines 45-98): fade machine,
independent loss, bit-error corruption of IMG payloads, duplicate flag. -/
def propagate (st : ChanState) (p : CPkt) (elev : ℚ) (_direction : String)
    (rnd : Rand) : ChanState × Option CPkt :=
  if st.in_fade then
    ({ in_fade := decide (0 < st.fade_remaining - 1),
       fade_remaining := st.fade_remaining - 1 }, none)
  else if rnd.r_fade < fade_start_prob elev then
    ({ in_fade := true, fade_remaining := 25 }, none)
  else if rnd.lossDrop then
    (st, none)
  else
    let out1 : CPkt := { p with corrupted := rnd.berHit }
    let out2 : CPkt :=
      if rnd.berHit && (p.ptype = "IMG" : Bool) then
        corrupt_base64_payload out1 (severityFor elev) rnd.pos rnd.chr
      else out1
    (st, some { out2 with duplicated := rnd.dupHit })

/-- A sequence of `propagate` calls with per-call packet, elevation,
direction and randomness. -/
def propagateRun (st : ChanState) :
    List (CPkt × ℚ × String × Rand) → ChanState × List (Option CPkt)
  | [] => (st, [])
  | c :: rest =>
    let s := propagate st c.1 c.2.1 c.2.2.1 c.2.2.2
    let r := propagateRun s.1 rest
    (r.1, s.2 :: r.2)

/-- Number of positions at which two equal-length payloads differ. -/
def countChanged (s t : List Nat) : Nat :=
  (List.range s.length).countP (fun i => decide (s.getD i 0 ≠ t.getD i 0))

theorem propagate_in_fade (st : ChanState) (p : CPkt) (elev : ℚ)
    (dir : String) (rnd : Rand) (h : st.in_fade = true) :
    propagate st p elev dir rnd =
      (⟨decide (0 < st.fade_remaining - 1), st.fade_remaining - 1⟩, none) := by
  rw [propagate, if_pos h]

theorem propagateRun_fade :
    ∀ (calls : List (CPkt × ℚ × String × Rand)) (n : Int),
      1 ≤ calls.length → (calls.length : Int) ≤ n →
      propagateRun ⟨true, n⟩ calls =
        (⟨decide (0 < n - calls.length), n - calls.length⟩,
          calls.map (fun _ => none)) := by
  intro calls
  induction calls with
  | nil =>
    intro n h1 _
    simp at h1
  | cons c rest ih =>
    intro n h1 h2
    have hstep : propagate ⟨true, n⟩ c.1 c.2.1 c.2.2.1 c.2.2.2 =
        (⟨decide (0 < n - 1), n - 1⟩, none) :=
      propagate_in_fade _ _ _ _ _ rfl
    simp only [List.length_cons, Nat.cast_add, Nat.cast_one] at h2
    rcases hrest : rest with _ | ⟨c2, rest2⟩
    · subst hrest
      rw [propagateRun, hstep]
      simp [propagateRun]
    · have hlen : 1 ≤ rest.length := by rw [hrest]; simp
      have hle : (rest.length : Int) ≤ n - 1 := by omega
      have hpos : 0 < n - 1 := by
        have : (1 : Int) ≤ (rest.length : Int) := by exact_mod_cast hlen
        omega
      have hmid : (⟨decide (0 < n - 1), n - 1⟩ : ChanState) = ⟨true, n - 1⟩ := by
        rw [decide_eq_true (by exact hpos)]
      rw [← hrest] at *
      rw [propagateRun, hstep, hmid, ih (n - 1) hlen hle]
      refine congrArg₂ Prod.mk ?_ (by simp)
      have he : n - 1 - (rest.length : Int) = n - ((rest.length : Nat) + 1 : Nat) := by
        push_cast
        ring
      rw [he]
      simp

/-- **C7.** Once the channel enters a fade (a call from the clear state
whose fade draw falls below `fade_start` returns drop and sets the counter
to `BURST_FADE_LENGTH_PKTS = 25`), the next 25 calls all return `None`
regardless of elevation, direction, packet or other draws; each call
decrements the counter, and the channel is back in the clear state exactly
when the counter has reached zero. -/
theorem C7_fade_persistence (st : ChanState) (p : CPkt) (elev : ℚ)
    (dir : String) (rnd : Rand)
    (hclear : st.in_fade = false)
    (htrig : rnd.r_fade < fade_start_prob elev) :
    (propagate st p elev dir rnd).2 = none
    ∧ (propagate st p elev dir rnd).1 = ⟨true, 25⟩
    ∧ ∀ calls : List (CPkt × ℚ × String × Rand),
        1 ≤ calls.length → calls.length ≤ 25 →
        (propagateRun ⟨true, 25⟩ calls).2 = calls.map (fun _ => none)
        ∧ (propagateRun ⟨true, 25⟩ calls).1 =
            ⟨decide ((calls.length : Int) < 25), 25 - (calls.length : Int)⟩ := by
  have hprop : propagate st p elev dir rnd = (⟨true, 25⟩, none) := by
    rw [propagate, if_neg (by simp [hclear]), if_pos htrig]
  refine ⟨by rw [hprop], by rw [hprop], ?_⟩
  intro calls h1 h25
  have h25' : (calls.length : Int) ≤ 25 := by exact_mod_cast h25
  have hrun := propagateRun_fade calls 25 h1 h25'
  rw [hrun]
  refine ⟨rfl, ?_⟩
  have hd : decide (0 < 25 - (calls.length : Int)) =
      decide ((calls.length : Int) < 25) :=
    decide_eq_decide.mpr (by omega)
  show (⟨decide (0 < 25 - (calls.length : Int)),
    25 - (calls.length : Int)⟩ : ChanState) = _
  rw [hd]

/-- Witness for C7: after a triggered fade, 25 arbitrary calls drop and the
channel is Clear with a zero counter. -/
theorem C7_fade_persistence_witness :
    (propagateRun ⟨true, 25⟩ (List.replicate 25
      ((⟨"TM", none, false, false⟩, 50, "downlink",
        ⟨0, false, false, false, fun _ => 0, fun _ => 0⟩) :
        CPkt × ℚ × String × Rand))).1 = ⟨false, 0⟩ := by
  have h := (C7_fade_persistence ⟨false, 0⟩ ⟨"TM", none, false, false⟩ 50
    "downlink" ⟨0, false, false, false, fun _ => 0, fun _ => 0⟩ rfl
    (by norm_num [fade_start_prob, link_quality_from_elev])).2.2
    (List.replicate 25
      ((⟨"TM", none, false, false⟩, 50, "downlink",
        ⟨0, false, false, false, fun _ => 0, fun _ => 0⟩) :
        CPkt × ℚ × String × Rand)) (by decide) (by decide)
  rw [h.2]
  decide

/-! ### C8: payload corruption -/

theorem corruptIter_length (pos chr : Nat → Nat) :
    ∀ (k : Nat) (s : List Nat), (corruptIter pos chr k s).length = s.length := by
  intro k
  induction k with
  | zero => intro s; rfl
  | succ k ih =>
    intro s
    rw [corruptIter, List.length_set]
    exact ih s

theorem getD_set_ne {α : Type} (l : List α) (j : Nat) (c : α) (i : Nat) (d : α)
    (h : i ≠ j) : (l.set j c).getD i d = l.getD i d := by
  rw [List.getD_eq_getElem?_getD, List.getD_eq_getElem?_getD,
    List.getElem?_set_ne (Ne.symm h)]

theorem getD_set_self {α : Type} (l : List α) (j : Nat) (c : α) (d : α)
    (h : j < l.length) : (l.set j c).getD j d = c := by
  rw [List.getD_eq_getElem?_getD, List.getElem?_set_self h]
  rfl

theorem countP_le_with_exception (p q : Nat → Bool) (j : Nat) :
    ∀ l : List Nat, (∀ x ∈ l, x ≠ j → q x = p x) →
      l.countP q ≤ l.countP p + l.count j := by
  intro l
  induction l with
  | nil => simp
  | cons a rest ih =>
    intro hpq
    have ht := ih (fun x hx => hpq x (by simp [hx]))
    by_cases haj : a = j
    · subst haj
      rw [List.countP_cons, List.countP_cons, List.count_cons_self]
      have he : (if q a = true then 1 else 0) ≤ 1 := by
        split <;> omega
      have hf : (0 : Nat) ≤ if p a = true then 1 else 0 := Nat.zero_le _
      omega
    · have hqa : q a = p a := hpq a (by simp) haj
      rw [List.countP_cons, List.countP_cons,
        List.count_cons_of_ne (fun hh => haj hh.symm), hqa]
      omega

theorem count_range_le_one (j n : Nat) : (List.range n).count j ≤ 1 :=
  List.nodup_iff_count_le_one.mp (List.nodup_range n) j

theorem countChanged_set (s t : List Nat) (j : Nat) (c : Nat) :
    countChanged s (t.set j c) ≤ countChanged s t + 1 := by
  rw [countChanged, countChanged]
  have h1 := countP_le_with_exception
    (fun i => decide (s.getD i 0 ≠ t.getD i 0))
    (fun i => decide (s.getD i 0 ≠ (t.set j c).getD i 0)) j
    (List.range s.length)
    (fun x _ hx => by
      show decide (s.getD x 0 ≠ (t.set j c).getD x 0) =
        decide (s.getD x 0 ≠ t.getD x 0)
      rw [getD_set_ne t j c x 0 hx])
  have h2 := count_range_le_one j s.length
  omega

theorem countChanged_refl (s : List Nat) : countChanged s s = 0 := by
  rw [countChanged, List.countP_eq_zero]
  intro i _
  simp

theorem corruptIter_countChanged (pos chr : Nat → Nat) :
    ∀ (k : Nat) (s : List Nat), countChanged s (corruptIter pos chr k s) ≤ k := by
  intro k
  induction k with
  | zero =>
    intro s
    show countChanged s s ≤ 0
    rw [countChanged_refl]
  | succ k ih =>
    intro s
    rw [corruptIter]
    have h1 := countChanged_set s (corruptIter pos chr k s) (pos k)
      (b64alphabet.getD (chr k) 0)
    have h2 := ih s
    omega

theorem b64alphabet_length : b64alphabet.length = 64 := rfl

theorem corruptIter_alphabet (pos chr : Nat → Nat) (hchr : ∀ k, chr k < 64) :
    ∀ (k : Nat) (s : List Nat) (i : Nat),
      (corruptIter pos chr k s).getD i 0 = s.getD i 0 ∨
        (corruptIter pos chr k s).getD i 0 ∈ b64alphabet := by
  intro k
  induction k with
  | zero => intro s i; exact Or.inl rfl
  | succ k ih =>
    intro s i
    rw [corruptIter]
    by_cases hij : i = pos k
    · by_cases hlt : pos k < (corruptIter pos chr k s).length
      · right
        rw [hij, getD_set_self _ _ _ _ hlt]
        have h64 : chr k < b64alphabet.length := by
          rw [b64alphabet_length]
          exact hchr k
        rw [getD_eq_getElem_of_lt _ _ _ h64]
        exact List.getElem_mem h64
      · rw [List.set_eq_of_length_le (by omega)]
        exact ih s i
    · rw [getD_set_ne _ _ _ _ _ hij]
      exact ih s i

/-- **C8 (amended).** When the channel corrupts an IMG datagram with a
non-empty `payload_b64` of length `n`, it performs exactly
`max(1, ⌊n·0.002·severity⌋)` rewrite operations with
`severity = 0.3 + 0.7·(1−q)`, each at an independently drawn position (drawn
with replacement, so positions may repeat) writing an independently drawn
character of the base64 alphabet (which may equal the character it
replaces).  Hence the payload keeps its length, at most `flips` positions
change, and every changed position holds a base64-alphabet character.  (The
original claim's "exactly `flips` positions, each receiving a different
character" fails — see the counterexample.) -/
theorem C8_corruption_contract (st : ChanState) (p : CPkt) (elev : ℚ)
    (dir : String) (rnd : Rand) (s : List Nat)
    (hclear : st.in_fade = false)
    (hnofade : ¬rnd.r_fade < fade_start_prob elev)
    (hnoloss : rnd.lossDrop = false)
    (hber : rnd.berHit = true)
    (himg : p.ptype = "IMG")
    (hpay : p.payload_b64 = some s)
    (hne : s ≠ [])
    (hchr : ∀ k, rnd.chr k < 64) :
    (propagate st p elev dir rnd).2 =
      some ⟨p.ptype,
        some (corruptIter rnd.pos rnd.chr
          (flipsFor s.length (severityFor elev)) s), true, rnd.dupHit⟩
    ∧ (corruptIter rnd.pos rnd.chr
        (flipsFor s.length (severityFor elev)) s).length = s.length
    ∧ countChanged s (corruptIter rnd.pos rnd.chr
        (flipsFor s.length (severityFor elev)) s) ≤
          flipsFor s.length (severityFor elev)
    ∧ ∀ i, (corruptIter rnd.pos rnd.chr
          (flipsFor s.length (severityFor elev)) s).getD i 0 = s.getD i 0 ∨
        (corruptIter rnd.pos rnd.chr
          (flipsFor s.length (severityFor elev)) s).getD i 0 ∈ b64alphabet := by
  refine ⟨?_, corruptIter_length _ _ _ _, corruptIter_countChanged _ _ _ _,
    fun i => corruptIter_alphabet _ _ hchr _ _ i⟩
  rcases p with ⟨pt, pb, pc, pd⟩
  simp only at himg hpay
  subst himg
  subst hpay
  rcases s with _ | ⟨s0, srest⟩
  · exact absurd rfl hne
  · rw [propagate, if_neg (by simp [hclear]), if_neg hnofade,
      if_neg (by simp [hnoloss])]
    simp only [hber]
    rw [if_pos (by simp)]
    rw [corrupt_base64_payload]

/-- Witness for C8 (amended) at a one-character payload: the single rewrite
keeps the length, changes at most one position, and leaves only alphabet
characters. -/
theorem C8_corruption_contract_witness :
    (propagate ⟨false, 0⟩ ⟨"IMG", some [65], false, false⟩ 0 "downlink"
        ⟨1, false, true, false, fun _ => 0, fun _ => 0⟩).2 =
      some ⟨"IMG",
        some (corruptIter (fun _ => 0) (fun _ => 0)
          (flipsFor 1 (severityFor 0)) [65]), true, false⟩ :=
  (C8_corruption_contract ⟨false, 0⟩ ⟨"IMG", some [65], false, false⟩ 0
    "downlink" ⟨1, false, true, false, fun _ => 0, fun _ => 0⟩ [65] rfl
    (by norm_num [fade_start_prob, link_quality_from_elev]) rfl rfl rfl rfl
    (by decide) (fun _ => (by decide : (0 : Nat) < 64))).1

/-- **C8 counterexample.** The corruption loop draws replacement characters
uniformly from the alphabet, so it can redraw the existing character: here
the payload `"A"` is "corrupted" with `flips = 1` yet comes back unchanged,
so no position received a character different from the one it replaced. -/
theorem C8_counterexample :
    corruptIter (fun _ => 0) (fun _ => 0) (flipsFor 1 (severityFor 0)) [65] =
      [65]
    ∧ flipsFor 1 (severityFor 0) = 1
    ∧ countChanged [65] [65] = 0 := by
  have hf : flipsFor 1 (severityFor 0) = 1 := by
    norm_num [flipsFor, severityFor, link_quality_from_elev]
  refine ⟨?_, hf, by decide⟩
  rw [hf]
  decide

/-! ## Image transmitter (src/satelllite/satellite_leo.py)

`send_image_if_needed` slices a frame into `IMG_CHUNK_BYTES` chunks, builds
one JSON object per chunk — with *no* `rep` key — and passes that same
object `IMG_REPEAT` times through `propagate`, sending each surviving copy.
`base64.b64encode`/`b64decode` are modelled on byte lists: the decoder
discards characters outside the alphabet/padding and accepts well-formed
groups (Python's lenient decoder accepts strictly more corrupted inputs;
the claims only rely on the round-trip on encoder output and on the
possibility of failure). -/

/-- `IMG_CHUNK_BYTES = 1200` (the deployed value). -/
def IMG_CHUNK_BYTES : Nat := 1200

/-- `IMG_REPEAT = 3`: the number of copies of each chunk handed to the
channel. -/
def IMG_REPEAT : Nat := 3

/-- The character encoding one 6-bit value. -/
def b64encChar (n : Nat) : Nat := b64alphabet.getD n 0

/-- `base64.b64encode` over byte lists, with `=` (code 61) padding. -/
def b64encode : List Nat → List Nat
  | [] => []
  | [a] => [b64encChar (a / 4), b64encChar (a % 4 * 16), 61, 61]
  | [a, b] => [b64encChar (a / 4), b64encChar (a % 4 * 16 + b / 16),
      b64encChar (b % 16 * 4), 61]
  | a :: b :: c :: rest =>
      b64encChar (a / 4) :: b64encChar (a % 4 * 16 + b / 16) ::
      b64encChar (b % 16 * 4 + c / 64) :: b64encChar (c % 64) :: b64encode rest

/-- The 6-bit value of an alphabet character (`none` for padding and
foreign characters). -/
def b64decChar (c : Nat) : Option Nat :=
  List.findIdx? (fun x => x == c) b64alphabet

/-- Decode a cleaned base64 text in groups of four characters; padding is
accepted only in the final group. -/
def b64decodeGroups : List Nat → Option (List Nat)
  | [] => some []
  | c1 :: c2 :: c3 :: c4 :: rest =>
    (b64decChar c1).bind (fun v1 =>
      (b64decChar c2).bind (fun v2 =>
        if c3 == 61 && c4 == 61 && rest.isEmpty then
          some [v1 * 4 + v2 / 16]
        else if c4 == 61 && rest.isEmpty then
          (b64decChar c3).map (fun v3 =>
            [v1 * 4 + v2 / 16, v2 % 16 * 16 + v3 / 4])
        else
          (b64decChar c3).bind (fun v3 =>
            (b64decChar c4).bind (fun v4 =>
              (b64decodeGroups rest).map (fun bs =>
                (v1 * 4 + v2 / 16) :: (v2 % 16 * 16 + v3 / 4) ::
                  (v3 % 4 * 64 + v4) :: bs)))))
  | _ => none

/-- `base64.b64decode(..., validate=False)`: discard foreign characters,
then decode in groups. -/
def b64decode (s : List Nat) : Option (List Nat) :=
  b64decodeGroups (s.filter (fun c => (b64decChar c).isSome || c == 61))

/-- The JSON object `send_image_if_needed` builds for one chunk (lines
138-145): `type`, `frame_id`, `chunk_idx`, `last`, `payload_b64`,
`corrupted` — and no `rep` key. -/
structure TxPkt where
  ptype : String
  frame_id : Nat
  chunk_idx : Nat
  last : Bool
  payload_b64 : List Nat
  corrupted : Bool
deriving DecidableEq

/-- The per-chunk datagram: `last` is true exactly for the final chunk,
the payload is the chunk base64-encoded once. -/
def mkChunkPkt (fid total idx : Nat) (ch : List Nat) : TxPkt :=
  ⟨"IMG", fid, idx, decide (idx = total - 1), b64encode ch, false⟩

/-- The datagrams handed to the channel for one chunk: `IMG_REPEAT`
references to the same object (`for _r in range(IMG_REPEAT)`). -/
def txChunkEmissions (fid total idx : Nat) (ch : List Nat) : List TxPkt :=
  List.replicate IMG_REPEAT (mkChunkPkt fid total idx ch)

/-- The transmitted JSON as the reassembler's parser sees it: all keys
present except `rep` and with the payload run through `b64decode`. -/
def txToRx (p : TxPkt) : Pkt :=
  ⟨some (some (p.frame_id : Int)), some (some (p.chunk_idx : Int)),
    some p.last, none, some (b64decode p.payload_b64)⟩

/-! ### Base64 round trip on encoder output -/

theorem decChar_encChar : ∀ n < 64, b64decChar (b64encChar n) = some n := by
  decide

theorem encChar_ne61 : ∀ n < 64, (b64encChar n == 61) = false := by decide

theorem b64encode_chars :
    ∀ (n : Nat) (l : List Nat), l.length ≤ n → (∀ b ∈ l, b < 256) →
      ∀ c ∈ b64encode l, ((b64decChar c).isSome || c == 61) = true := by
  have hp : ∀ v, v < 64 → ((b64decChar (b64encChar v)).isSome ||
      (b64encChar v == 61)) = true := by decide
  intro n
  induction n with
  | zero =>
    intro l h _
    have : l = [] := List.eq_nil_of_length_eq_zero (by omega)
    subst this
    intro c hc
    exact absurd hc (by simp [b64encode])
  | succ n ih =>
    intro l h hb
    rcases l with _ | ⟨a, _ | ⟨b, _ | ⟨c0, rest⟩⟩⟩
    · intro c hc
      exact absurd hc (by simp [b64encode])
    · have ha : a < 256 := hb a (by simp)
      intro c hc
      rw [b64encode] at hc
      simp only [List.mem_cons, List.not_mem_nil, or_false] at hc
      rcases hc with hc | hc | hc | hc
      · rw [hc]; exact hp _ (by omega)
      · rw [hc]; exact hp _ (by omega)
      · rw [hc]; decide
      · rw [hc]; decide
    · have ha : a < 256 := hb a (by simp)
      have hbb : b < 256 := hb b (by simp)
      intro c hc
      rw [b64encode] at hc
      simp only [List.mem_cons, List.not_mem_nil, or_false] at hc
      rcases hc with hc | hc | hc | hc
      · rw [hc]; exact hp _ (by omega)
      · rw [hc]; exact hp _ (by omega)
      · rw [hc]; exact hp _ (by omega)
      · rw [hc]; decide
    · have ha : a < 256 := hb a (by simp)
      have hbb : b < 256 := hb b (by simp)
      have hcc : c0 < 256 := hb c0 (by simp)
      intro c hc
      rw [b64encode] at hc
      simp only [List.mem_cons] at hc
      rcases hc with hc | hc | hc | hc | hc
      · rw [hc]; exact hp _ (by omega)
      · rw [hc]; exact hp _ (by omega)
      · rw [hc]; exact hp _ (by omega)
      · rw [hc]; exact hp _ (by omega)
      · exact ih rest (by simp at h; omega)
          (fun x hx => hb x (by simp [hx])) c hc

theorem decodeGroups_encode_aux :
    ∀ (n : Nat) (l : List Nat), l.length ≤ n → (∀ b ∈ l, b < 256) →
      b64decodeGroups (b64encode l) = some l := by
  intro n
  induction n with
  | zero =>
    intro l h _
    have : l = [] := List.eq_nil_of_length_eq_zero (by omega)
    subst this
    rfl
  | succ n ih =>
    intro l h hb
    rcases l with _ | ⟨a, _ | ⟨b, _ | ⟨c, rest⟩⟩⟩
    · rfl
    · have ha : a < 256 := hb a (by simp)
      rw [b64encode, b64decodeGroups,
        decChar_encChar _ (by omega : a / 4 < 64),
        decChar_encChar _ (by omega : a % 4 * 16 < 64)]
      simp only [Option.some_bind]
      rw [if_pos (by decide)]
      have hv : a / 4 * 4 + a % 4 * 16 / 16 = a := by omega
      rw [hv]
    · have ha : a < 256 := hb a (by simp)
      have hbb : b < 256 := hb b (by simp)
      rw [b64encode, b64decodeGroups,
        decChar_encChar _ (by omega : a / 4 < 64),
        decChar_encChar _ (by omega : a % 4 * 16 + b / 16 < 64)]
      simp only [Option.some_bind]
      rw [if_neg (by simp [encChar_ne61 _ (by omega : b % 16 * 4 < 64)]),
        if_pos (by decide),
        decChar_encChar _ (by omega : b % 16 * 4 < 64)]
      simp only [Option.map_some']
      have hv1 : a / 4 * 4 + (a % 4 * 16 + b / 16) / 16 = a := by omega
      have hv2 : (a % 4 * 16 + b / 16) % 16 * 16 + b % 16 * 4 / 4 = b := by
        omega
      rw [hv1, hv2]
    · have ha : a < 256 := hb a (by simp)
      have hbb : b < 256 := hb b (by simp)
      have hcc : c < 256 := hb c (by simp)
      rw [b64encode, b64decodeGroups,
        decChar_encChar _ (by omega : a / 4 < 64),
        decChar_encChar _ (by omega : a % 4 * 16 + b / 16 < 64)]
      simp only [Option.some_bind]
      rw [if_neg (by
          simp [encChar_ne61 _ (by omega : b % 16 * 4 + c / 64 < 64)]),
        if_neg (by simp [encChar_ne61 _ (by omega : c % 64 < 64)]),
        decChar_encChar _ (by omega : b % 16 * 4 + c / 64 < 64),
        decChar_encChar _ (by omega : c % 64 < 64)]
      simp only [Option.some_bind]
      rw [ih rest (by simp at h; omega) (fun x hx => hb x (by simp [hx]))]
      simp only [Option.map_some']
      have hv1 : a / 4 * 4 + (a % 4 * 16 + b / 16) / 16 = a := by omega
      have hv2 : (a % 4 * 16 + b / 16) % 16 * 16 + (b % 16 * 4 + c / 64) / 4 = b := by
        omega
      have hv3 : (b % 16 * 4 + c / 64) % 4 * 64 + c % 64 = c := by omega
      rw [hv1, hv2, hv3]

/-- On encoder output the lenient decoder inverts the encoder. -/
theorem b64decode_b64encode (l : List Nat) (hb : ∀ b ∈ l, b < 256) :
    b64decode (b64encode l) = some l := by
  rw [b64decode,
    List.filter_eq_self.mpr (b64encode_chars l.length l le_rfl hb),
    decodeGroups_encode_aux l.length l le_rfl hb]

theorem chunksOf_sub {α : Type} (w : Nat) :
    ∀ (n : Nat) (l : List α), l.length ≤ n →
      ∀ r ∈ chunksOf w l, ∀ x ∈ r, x ∈ l := by
  intro n
  induction n with
  | zero =>
    intro l h r hr
    have : l = [] := List.eq_nil_of_length_eq_zero (by omega)
    subst this
    rw [chunksOf_nil] at hr
    exact absurd hr (by simp)
  | succ n ih =>
    intro l h r hr x hx
    by_cases hw : w = 0
    · rw [chunksOf, dif_pos (Or.inl hw)] at hr
      exact absurd hr (by simp)
    · rcases l with _ | ⟨a, tl⟩
      · rw [chunksOf_nil] at hr
        exact absurd hr (by simp)
      · have hlne : (a :: tl) ≠ [] := by simp
        rw [chunksOf_cons w (a :: tl) hw hlne] at hr
        rcases List.mem_cons.mp hr with rfl | hr
        · exact List.mem_of_mem_take hx
        · have hdl : ((a :: tl).drop w).length ≤ n := by
            simp only [List.length_drop, List.length_cons]
            simp only [List.length_cons] at h
            omega
          exact List.mem_of_mem_drop (ih _ hdl r hr x hx)

/-- **C3 (amended).** For every chunk of a transmitted frame, the
transmitter builds a single datagram — `type="IMG"`, `frame_id`,
`chunk_idx`, `last` true exactly on the final chunk, `payload_b64` the
base64 of the chunk bytes, `corrupted=false`, and **no `rep` field** — and
hands that identical datagram to the channel `IMG_REPEAT = 3` times, so all
copies carry byte-identical `payload_b64` before the channel and the
payload decodes back to the chunk bytes.  (The spec's `IMG_REP_COPIES = 5`
datagrams differing in `rep` do not exist in the code — see the
counterexample.) -/
theorem C3_chunk_emission (fid : Nat) (frame : List Nat) (idx : Nat)
    (hbytes : ∀ b ∈ frame, b < 256)
    (hidx : idx < (chunksOf IMG_CHUNK_BYTES frame).length) :
    txChunkEmissions fid (chunksOf IMG_CHUNK_BYTES frame).length idx
        ((chunksOf IMG_CHUNK_BYTES frame).getD idx []) =
      List.replicate 3
        (mkChunkPkt fid (chunksOf IMG_CHUNK_BYTES frame).length idx
          ((chunksOf IMG_CHUNK_BYTES frame).getD idx []))
    ∧ (mkChunkPkt fid (chunksOf IMG_CHUNK_BYTES frame).length idx
        ((chunksOf IMG_CHUNK_BYTES frame).getD idx [])).payload_b64 =
      b64encode ((chunksOf IMG_CHUNK_BYTES frame).getD idx [])
    ∧ ((mkChunkPkt fid (chunksOf IMG_CHUNK_BYTES frame).length idx
        ((chunksOf IMG_CHUNK_BYTES frame).getD idx [])).last = true ↔
        idx = (chunksOf IMG_CHUNK_BYTES frame).length - 1)
    ∧ (txToRx (mkChunkPkt fid (chunksOf IMG_CHUNK_BYTES frame).length idx
        ((chunksOf IMG_CHUNK_BYTES frame).getD idx []))).rep = none
    ∧ (txToRx (mkChunkPkt fid (chunksOf IMG_CHUNK_BYTES frame).length idx
        ((chunksOf IMG_CHUNK_BYTES frame).getD idx []))).payload_b64 =
      some (some ((chunksOf IMG_CHUNK_BYTES frame).getD idx [])) := by
  have hchmem : (chunksOf IMG_CHUNK_BYTES frame).getD idx [] ∈
      chunksOf IMG_CHUNK_BYTES frame := by
    rw [getD_eq_getElem_of_lt _ _ _ hidx]
    exact List.getElem_mem hidx
  have hc : ∀ b ∈ (chunksOf IMG_CHUNK_BYTES frame).getD idx [], b < 256 :=
    fun b hbmem => hbytes b
      (chunksOf_sub IMG_CHUNK_BYTES frame.length frame le_rfl _ hchmem b hbmem)
  refine ⟨rfl, rfl, ?_, rfl, ?_⟩
  · show decide (idx = (chunksOf IMG_CHUNK_BYTES frame).length - 1) = true ↔ _
    exact decide_eq_true_iff
  · show some (b64decode (b64encode ((chunksOf IMG_CHUNK_BYTES frame).getD idx []))) = _
    rw [b64decode_b64encode _ hc]

/-- Witness for C3 (amended) on the 3-byte frame `[1, 2, 3]` (one chunk):
the transmitted payload decodes back to the chunk bytes. -/
theorem C3_chunk_emission_witness :
    (txToRx (mkChunkPkt 0 (chunksOf IMG_CHUNK_BYTES [1, 2, 3]).length 0
      ((chunksOf IMG_CHUNK_BYTES [1, 2, 3]).getD 0 []))).payload_b64 =
      some (some ((chunksOf IMG_CHUNK_BYTES [1, 2, 3]).getD 0 [])) :=
  (C3_chunk_emission 0 [1, 2, 3] 0 (by decide)
    (by
      rw [chunksOf_cons IMG_CHUNK_BYTES [1, 2, 3] (by decide) (by decide)]
      simp)).2.2.2.2

/-- **C3 counterexample.** The transmitter does not emit `IMG_REP_COPIES`
datagrams differing only in `rep` with `rep` values `{0, …, 4}`: it emits 3
datagrams, all equal, and none carries a `rep` field (the parser sees
`rep = none`). -/
theorem C3_counterexample :
    txChunkEmissions 0 2 0 [1, 2, 3] =
      [mkChunkPkt 0 2 0 [1, 2, 3], mkChunkPkt 0 2 0 [1, 2, 3],
        mkChunkPkt 0 2 0 [1, 2, 3]]
    ∧ (∀ p ∈ txChunkEmissions 0 2 0 [1, 2, 3],
        ∀ q ∈ txChunkEmissions 0 2 0 [1, 2, 3], p = q)
    ∧ (∀ p ∈ txChunkEmissions 0 2 0 [1, 2, 3], (txToRx p).rep = none) := by
  decide

end ViswinSim
